import Mathlib

/-!
Verification development for the full-moon lossless Lua parser
(crates `full-moon`, `full-moon-common`, `full-moon-super`).

The Rust sources are embedded shallowly:
* pure functions become Lean functions;
* `&mut self` methods become functions returning the updated value;
* machine integers (`usize`, `u8`) become `Nat`;
* panics (`unreachable!`, `unwrap`, `todo!`, `expect`) become `Except`/`Option`
  error values so that "the code aborts" is an observable outcome;
* `while` loops become recursion on an explicit loop variant (a `Nat` fuel
  argument initialized to the exact number of iterations the loop can make,
  namely the count of unconsumed characters/tokens), so every definition is
  executable by the kernel.
-/

namespace FullMoon

/-! ## Positions and tokens

From `full-moon-common/src/tokenizer.rs`.
-/

/-- `Position` (full-moon-common/src/tokenizer.rs): byte offset, line, column. -/
structure Position where
  bytes : Nat
  line : Nat
  character : Nat
deriving Repr, DecidableEq

/-- The `Symbol` enum generated by the `symbol!` macro invocation in
`full-moon-super/src/symbols.rs` (all version-gated variants included). -/
inductive Symbol where
  | And | Break | Do | Else | ElseIf | End | False | For | Function
  | If | In | Local | Nil | Not | Or | Repeat | Return | Then | True
  | Until | While | Goto
  | PlusEqual | MinusEqual | StarEqual | SlashEqual | DoubleSlashEqual
  | PercentEqual | CaretEqual | TwoDotsEqual
  | Ampersand | ThinArrow | TwoColons
  | Caret | Colon | Comma | Dot | TwoDots | Ellipse | Equal | TwoEqual
  | GreaterThan | GreaterThanEqual | DoubleGreaterThan | Hash
  | LeftBrace | LeftBracket | LeftParen | LessThan | LessThanEqual
  | DoubleLessThan | Minus | Percent | Pipe | Plus | QuestionMark
  | RightBrace | RightBracket | RightParen | Semicolon | Slash
  | DoubleSlash | Star | Tilde | TildeEqual
deriving Repr, DecidableEq

/-- The `Display` impl generated by `symbol!` (full-moon-super/src/symbols.rs):
each symbol maps to its literal source string. -/
def Symbol.display : Symbol → String
  | .And => "and" | .Break => "break" | .Do => "do" | .Else => "else"
  | .ElseIf => "elseif" | .End => "end" | .False => "false" | .For => "for"
  | .Function => "function" | .If => "if" | .In => "in" | .Local => "local"
  | .Nil => "nil" | .Not => "not" | .Or => "or" | .Repeat => "repeat"
  | .Return => "return" | .Then => "then" | .True => "true"
  | .Until => "until" | .While => "while" | .Goto => "goto"
  | .PlusEqual => "+=" | .MinusEqual => "-=" | .StarEqual => "*="
  | .SlashEqual => "/=" | .DoubleSlashEqual => "//=" | .PercentEqual => "%="
  | .CaretEqual => "^=" | .TwoDotsEqual => "..="
  | .Ampersand => "&" | .ThinArrow => "->" | .TwoColons => "::"
  | .Caret => "^" | .Colon => ":" | .Comma => "," | .Dot => "."
  | .TwoDots => ".." | .Ellipse => "..." | .Equal => "=" | .TwoEqual => "=="
  | .GreaterThan => ">" | .GreaterThanEqual => ">=" | .DoubleGreaterThan => ">>"
  | .Hash => "#" | .LeftBrace => "\x7b" | .LeftBracket => "[" | .LeftParen => "("
  | .LessThan => "<" | .LessThanEqual => "<=" | .DoubleLessThan => "<<"
  | .Minus => "-" | .Percent => "%" | .Pipe => "|" | .Plus => "+"
  | .QuestionMark => "?" | .RightBrace => "\x7d" | .RightBracket => "]"
  | .RightParen => ")" | .Semicolon => ";" | .Slash => "/"
  | .DoubleSlash => "//" | .Star => "*" | .Tilde => "~" | .TildeEqual => "~="

/-- The list of every `Symbol` variant, in declaration order. -/
def Symbol.all : List Symbol :=
  [.And, .Break, .Do, .Else, .ElseIf, .End, .False, .For, .Function,
   .If, .In, .Local, .Nil, .Not, .Or, .Repeat, .Return, .Then, .True,
   .Until, .While, .Goto,
   .PlusEqual, .MinusEqual, .StarEqual, .SlashEqual, .DoubleSlashEqual,
   .PercentEqual, .CaretEqual, .TwoDotsEqual,
   .Ampersand, .ThinArrow, .TwoColons,
   .Caret, .Colon, .Comma, .Dot, .TwoDots, .Ellipse, .Equal, .TwoEqual,
   .GreaterThan, .GreaterThanEqual, .DoubleGreaterThan, .Hash,
   .LeftBrace, .LeftBracket, .LeftParen, .LessThan, .LessThanEqual,
   .DoubleLessThan, .Minus, .Percent, .Pipe, .Plus, .QuestionMark,
   .RightBrace, .RightBracket, .RightParen, .Semicolon, .Slash,
   .DoubleSlash, .Star, .Tilde, .TildeEqual]

/-- Modelled from the spec: `Symbol::try_from(&str)` is called by the lexer
(`full-moon/src/tokenizer/lexer.rs` line 95) but its implementation is not in
`src/` (the macro-generated `Symbol::from_str` body is an unfinished `todo!()`).
Per the spec, "keyword tables are dialect-specific lookups — an identifier that
matches an active-dialect keyword becomes a Symbol token instead": the text is
looked up in the symbol table of `full-moon-super/src/symbols.rs`. -/
def Symbol.try_from (text : String) : Option Symbol :=
  Symbol.all.find? (fun s => s.display = text)

/-- `StringLiteralQuoteType` (full-moon-common/src/tokenizer.rs). -/
inductive StringLiteralQuoteType where
  | Brackets
  | Double
  | Single
deriving Repr, DecidableEq

/-- `InterpolatedStringKind` (full-moon/src/tokenizer/structs.rs). -/
inductive InterpolatedStringKind where
  | Begin
  | Middle
  | End
  | Simple
deriving Repr, DecidableEq

/-- `TokenType` (full-moon-common/src/tokenizer.rs), instantiated at the
concrete `Symbol` of `full-moon-super`. -/
inductive TokenType where
  | Eof
  | Identifier (identifier : String)
  | MultiLineComment (blocks : Nat) (comment : String)
  | Number (text : String)
  | Shebang (line : String)
  | SingleLineComment (comment : String)
  | StringLiteral (literal : String) (multi_line_depth : Nat)
      (quote_type : StringLiteralQuoteType)
  | Symbol (symbol : Symbol)
  | Whitespace (characters : String)
  | InterpolatedString (literal : String) (kind : InterpolatedStringKind)
deriving Repr, DecidableEq

/-- `TokenKind` (full-moon-common/src/tokenizer.rs). -/
inductive TokenKind where
  | Eof
  | Identifier
  | MultiLineComment
  | Number
  | Shebang
  | SingleLineComment
  | StringLiteral
  | Symbol
  | Whitespace
  | InterpolatedString
deriving Repr, DecidableEq

/-- `TokenType::kind` (full-moon-common/src/tokenizer.rs). -/
def TokenType.kind : TokenType → TokenKind
  | .Eof => .Eof
  | .Identifier _ => .Identifier
  | .MultiLineComment _ _ => .MultiLineComment
  | .Number _ => .Number
  | .Shebang _ => .Shebang
  | .SingleLineComment _ => .SingleLineComment
  | .StringLiteral _ _ _ => .StringLiteral
  | .Symbol _ => .Symbol
  | .Whitespace _ => .Whitespace
  | .InterpolatedString _ _ => .InterpolatedString

/-- `TokenType::is_trivia` (full-moon-common/src/tokenizer.rs). -/
def TokenType.is_trivia : TokenType → Bool
  | .Shebang _ => true
  | .SingleLineComment _ => true
  | .MultiLineComment _ _ => true
  | .Whitespace _ => true
  | _ => false

/-- `Token` (full-moon-common/src/tokenizer.rs). -/
structure Token where
  start_position : Position
  end_position : Position
  token_type : TokenType
deriving Repr, DecidableEq

/-- `Token::token_kind`. -/
def Token.token_kind (t : Token) : TokenKind :=
  t.token_type.kind

/-- Helper: a string of `n` repeated equals signs (Rust `"=".repeat(n)`). -/
def eqRepeat (n : Nat) : String :=
  String.mk (List.replicate n '=')

/-- The `Display` impl for `Token` (full-moon-common/src/tokenizer.rs lines
230-282). `StringLiteralQuoteType::Brackets` is already handled before
`quote_type.to_string()` is reached, mirroring the Rust control flow. -/
def Token.display (t : Token) : String :=
  match t.token_type with
  | .Eof => ""
  | .Number text => text
  | .Identifier identifier => identifier
  | .MultiLineComment blocks comment =>
      "--[" ++ eqRepeat blocks ++ "[" ++ comment ++ "]" ++ eqRepeat blocks ++ "]"
  | .Shebang line => line
  | .SingleLineComment comment => "--" ++ comment
  | .StringLiteral literal multi_line_depth quote_type =>
      match quote_type with
      | .Brackets =>
          "[" ++ eqRepeat multi_line_depth ++ "[" ++ literal ++ "]"
            ++ eqRepeat multi_line_depth ++ "]"
      | .Double => "\"" ++ literal ++ "\""
      | .Single => "'" ++ literal ++ "'"
  | .Symbol symbol => symbol.display
  | .Whitespace characters => characters
  | .InterpolatedString literal kind =>
      match kind with
      | .Begin => "`" ++ literal ++ "\x7b"
      | .Middle => "\x7d" ++ literal ++ "\x7b"
      | .End => "\x7d" ++ literal ++ "`"
      | .Simple => "`" ++ literal ++ "`"

/-- `TokenReference` (full-moon-common/src/tokenizer.rs): a token plus leading
and trailing trivia. -/
structure TokenReference where
  leading_trivia : List Token
  token : Token
  trailing_trivia : List Token
deriving Repr, DecidableEq

/-- `TokenReference::token_kind` (through the `Deref` to `Token`). -/
def TokenReference.token_kind (t : TokenReference) : TokenKind :=
  t.token.token_kind

/-- `TokenReference::is_symbol` (full-moon-common/src/tokenizer.rs). -/
def TokenReference.is_symbol (t : TokenReference) (symbol : Symbol) : Bool :=
  t.token.token_type == .Symbol symbol

/-- The `Display` impl for `TokenReference` (full-moon-common/src/tokenizer.rs
lines 567-581): leading trivia, then the token, then trailing trivia. -/
def TokenReference.display (t : TokenReference) : String :=
  String.join (t.leading_trivia.map Token.display)
    ++ t.token.display
    ++ String.join (t.trailing_trivia.map Token.display)

/-- `TokenizerErrorType` (full-moon-common/src/tokenizer.rs). -/
inductive TokenizerErrorType where
  | UnclosedComment
  | UnclosedString
  | InvalidNumber
  | UnexpectedToken (character : Char)
  | InvalidSymbol (symbol : String)
deriving Repr, DecidableEq

/-- `TokenizerError` as defined in full-moon-common/src/tokenizer.rs: an error
type plus the range of the offending token. -/
structure TokenizerError where
  error : TokenizerErrorType
  range : Position × Position
deriving Repr, DecidableEq

/-- The `TokenizerError` shape constructed by the rewritten lexer in
`full-moon/src/tokenizer/lexer.rs` (line 195-198): an error type plus a single
position. (The crates are mid-migration and the two shapes coexist.) -/
structure LexTokenizerError where
  error : TokenizerErrorType
  position : Position
deriving Repr, DecidableEq

/-! ## The rewritten lexer of the `full-moon` crate

From `full-moon/src/tokenizer/lexer.rs`. `LexerSource` keeps the characters
and the running position; `position.bytes` doubles as the index into the
character vector, exactly as in the Rust file (which pushes `chars()` into a
`Vec<char>` and always increments `bytes` by 1).
-/

/-- `LexerSource` (full-moon/src/tokenizer/lexer.rs lines 207-255). -/
structure LexerSource where
  source : List Char
  position : Position
deriving Repr, DecidableEq

/-- `LexerSource::current`. -/
def LexerSource.current (s : LexerSource) : Option Char :=
  s.source[s.position.bytes]?

/-- `LexerSource::next`: consume the current character, updating line/column
(`\n` resets the column and bumps the line) and the byte counter. -/
def LexerSource.next (s : LexerSource) : Option Char × LexerSource :=
  match s.current with
  | none => (none, s)
  | some c =>
      let p := s.position
      let p :=
        if c = '\n' then
          { p with line := p.line + 1, character := 1 }
        else
          { p with character := p.character + 1 }
      (some c, { s with position := { p with bytes := p.bytes + 1 } })

/-- `LexerSource::peek`: the character one beyond the current one. -/
def LexerSource.peek (s : LexerSource) : Option Char :=
  s.source[s.position.bytes + 1]?

/-- `LexerSource::consume` (full-moon/src/tokenizer/lexer.rs lines 247-254).
Note that, as written in this crate, it tests `peek()` (the character one
beyond the current one), not `current()`; compare the version in
`full-moon-common/src/lexer.rs` lines 110-117 which tests `current()`. -/
def LexerSource.consume (s : LexerSource) (character : Char) : Bool × LexerSource :=
  if s.peek = some character then
    (true, (s.next).2)
  else
    (false, s)

/-- `is_identifier_start` (full-moon/src/tokenizer/lexer.rs lines 203-205). -/
def is_identifier_start (character : Char) : Bool :=
  (decide ('a' ≤ character) && decide (character ≤ 'z'))
    || (decide ('A' ≤ character) && decide (character ≤ 'Z'))
    || character == '_'

/-- Rust `matches!(next, '0'..='9')`. -/
def isDigitChar (character : Char) : Bool :=
  decide ('0' ≤ character) && decide (character ≤ '9')

/-- The identifier-scanning `while` loop of `process_next` (lines 85-91): keep
consuming identifier characters and digits. The fuel is the loop variant (the
count of unconsumed characters; each iteration consumes exactly one). -/
def scanIdentifierAux : Nat → LexerSource → String → String × LexerSource
  | 0, s, acc => (acc, s)
  | fuel+1, s, acc =>
      match s.current with
      | some c =>
          if is_identifier_start c || isDigitChar c then
            scanIdentifierAux fuel (s.next).2 (acc.push c)
          else
            (acc, s)
      | none => (acc, s)

/-- The identifier loop with its variant instantiated. -/
def scanIdentifier (s : LexerSource) (acc : String) : String × LexerSource :=
  scanIdentifierAux (s.source.length - s.position.bytes) s acc

/-- The whitespace-scanning `while` loop of `process_next` (lines 109-122):
spaces and tabs are absorbed; the run is terminated by, and includes, a
newline (`\n`, or `\r` followed by `\n`). -/
def scanWhitespaceAux : Nat → LexerSource → String → String × LexerSource
  | 0, s, acc => (acc, s)
  | fuel+1, s, acc =>
      match s.current with
      | some c =>
          if c == ' ' || c == '\t' then
            scanWhitespaceAux fuel (s.next).2 (acc.push c)
          else if c == '\n' then
            (acc.push c, (s.next).2)
          else if c == '\r' && s.peek == some '\n' then
            let s1 := (s.next).2
            match s1.next with
            | (some c2, s2) => ((acc.push c).push c2, s2)
            | (none, s2) => (acc.push c, s2)
          else
            (acc, s)
      | none => (acc, s)

/-- The whitespace loop with its variant instantiated. -/
def scanWhitespace (s : LexerSource) (acc : String) : String × LexerSource :=
  scanWhitespaceAux (s.source.length - s.position.bytes) s acc

/-- The number-scanning `while` loop of `process_next` (lines 136-142). -/
def scanNumberAux : Nat → LexerSource → String → String × LexerSource
  | 0, s, acc => (acc, s)
  | fuel+1, s, acc =>
      match s.current with
      | some c =>
          if isDigitChar c then
            scanNumberAux fuel (s.next).2 (acc.push c)
          else
            (acc, s)
      | none => (acc, s)

/-- The number loop with its variant instantiated. -/
def scanNumber (s : LexerSource) (acc : String) : String × LexerSource :=
  scanNumberAux (s.source.length - s.position.bytes) s acc

/-- `Lexer` (full-moon/src/tokenizer/lexer.rs lines 5-12). The two-slot
lookahead buffer (`next_token`, `peek_token`) is not part of this state: the
buffer is filled and drained in FIFO order by `Lexer::new`/`Lexer::next`, so
the sequence of tokens returned by `next()` is exactly the sequence of
successive `process_next()` results, which is what `tokens` below produces. -/
structure Lexer where
  source : LexerSource
  sent_eof : Bool
deriving Repr, DecidableEq

/-- `Lexer::process_next` (full-moon/src/tokenizer/lexer.rs lines 68-200).
Returns `none` when the token stream is exhausted (Eof already sent). -/
def Lexer.process_next (lx : Lexer) :
    Option ((Except LexTokenizerError Token) × Lexer) :=
  let start_position := lx.source.position
  match lx.source.next with
  | (none, _) =>
      if lx.sent_eof then
        none
      else
        some (.ok { start_position, end_position := lx.source.position,
                    token_type := .Eof },
              { lx with sent_eof := true })
  | (some next, src) =>
      if is_identifier_start next then
        let (identifier, src) := scanIdentifier src (String.singleton next)
        some (.ok { start_position, end_position := src.position,
                    token_type :=
                      match Symbol.try_from identifier with
                      | some symbol => .Symbol symbol
                      | none => .Identifier identifier },
              { source := src, sent_eof := lx.sent_eof })
      else if next == ' ' || next == '\t' then
        let (whitespace, src) := scanWhitespace src (String.singleton next)
        some (.ok { start_position, end_position := src.position,
                    token_type := .Whitespace whitespace },
              { source := src, sent_eof := lx.sent_eof })
      else if isDigitChar next then
        let (number, src) := scanNumber src (String.singleton next)
        some (.ok { start_position, end_position := src.position,
                    token_type := .Number number },
              { source := src, sent_eof := lx.sent_eof })
      else if next == '=' then
        match src.consume '=' with
        | (true, src) =>
            some (.ok { start_position, end_position := src.position,
                        token_type := .Symbol .TwoEqual },
                  { source := src, sent_eof := lx.sent_eof })
        | (false, src) =>
            some (.ok { start_position, end_position := src.position,
                        token_type := .Symbol .Equal },
                  { source := src, sent_eof := lx.sent_eof })
      else if next == '\n' then
        some (.ok { start_position,
                    end_position := { start_position with
                                      bytes := start_position.bytes + 1 },
                    token_type := .Whitespace "\n" },
              { source := src, sent_eof := lx.sent_eof })
      else if next == '(' then
        some (.ok { start_position, end_position := src.position,
                    token_type := .Symbol .LeftParen },
              { source := src, sent_eof := lx.sent_eof })
      else if next == ')' then
        some (.ok { start_position, end_position := src.position,
                    token_type := .Symbol .RightParen },
              { source := src, sent_eof := lx.sent_eof })
      else
        some (.error { error := .UnexpectedToken next, position := src.position },
              { source := src, sent_eof := lx.sent_eof })

/-- Driving the lexer to exhaustion: the sequence of `process_next` results
(equivalently, of `Lexer::next` results) until `None`. The fuel is the loop
variant: every produced item either consumes at least one character or flips
`sent_eof`, so `remaining characters + 2` iterations always suffice. -/
def Lexer.tokensAux : Nat → Lexer → List (Except LexTokenizerError Token)
  | 0, _ => []
  | fuel+1, lx =>
      match lx.process_next with
      | none => []
      | some (item, lx') => item :: Lexer.tokensAux fuel lx'

/-- The token stream of a lexer, with the variant instantiated. -/
def Lexer.tokens (lx : Lexer) : List (Except LexTokenizerError Token) :=
  Lexer.tokensAux (lx.source.source.length - lx.source.position.bytes + 2) lx

/-- `Lexer::new` (full-moon/src/tokenizer/lexer.rs lines 15-28): position
starts at line 1, character 1, byte 0. -/
def Lexer.new (source : String) : Lexer :=
  { source := { source := source.data,
                position := { bytes := 0, line := 1, character := 1 } },
    sent_eof := false }

/-- The whole token stream of a source string. -/
def tokenize (source : String) : List (Except LexTokenizerError Token) :=
  (Lexer.new source).tokens

/-- The token type of a stream item, if the item is a token. -/
def itemType (item : Except LexTokenizerError Token) : Option TokenType :=
  match item with
  | .ok t => some t.token_type
  | .error _ => none

/-- Whether a stream item is an Eof token. -/
def isEofItem (item : Except LexTokenizerError Token) : Bool :=
  match item with
  | .ok t => t.token_type == TokenType.Eof
  | .error _ => false

/-- The source text reproduced by a token stream: the concatenation of the
displayed text of every token (error items have no text). -/
def streamDisplay (items : List (Except LexTokenizerError Token)) : String :=
  String.join (items.map (fun i =>
    match i with
    | .ok t => t.display
    | .error _ => ""))

theorem LexerSource.next_snd_source (s : LexerSource) :
    ((s.next).2).source = s.source := by
  unfold LexerSource.next
  cases s.current <;> simp

theorem LexerSource.next_snd_bytes_le (s : LexerSource) :
    s.position.bytes ≤ ((s.next).2).position.bytes := by
  unfold LexerSource.next
  cases s.current with
  | none => simp
  | some c =>
      simp only
      split <;> simp

theorem LexerSource.next_snd_bytes_of_some {s : LexerSource} {c : Char}
    (h : s.current = some c) :
    ((s.next).2).position.bytes = s.position.bytes + 1 := by
  unfold LexerSource.next
  rw [h]
  simp only
  split <;> rfl

theorem LexerSource.consume_snd_source (s : LexerSource) (c : Char) :
    ((s.consume c).2).source = s.source := by
  unfold LexerSource.consume
  split
  · exact s.next_snd_source
  · rfl

theorem LexerSource.consume_snd_bytes_le (s : LexerSource) (c : Char) :
    s.position.bytes ≤ ((s.consume c).2).position.bytes := by
  unfold LexerSource.consume
  split
  · exact s.next_snd_bytes_le
  · exact Nat.le_refl _

theorem scanIdentifierAux_spec (fuel : Nat) :
    ∀ (s : LexerSource) (acc : String),
      ((scanIdentifierAux fuel s acc).2).source = s.source ∧
        s.position.bytes ≤ ((scanIdentifierAux fuel s acc).2).position.bytes := by
  induction fuel with
  | zero => intro s acc; exact ⟨rfl, Nat.le_refl _⟩
  | succ n ih =>
      intro s acc
      unfold scanIdentifierAux
      cases hc : s.current with
      | none => exact ⟨rfl, Nat.le_refl _⟩
      | some c =>
          simp only
          split
          · have h2 := ih (s.next).2 (acc.push c)
            refine ⟨?_, ?_⟩
            · rw [h2.1, s.next_snd_source]
            · exact Nat.le_trans s.next_snd_bytes_le h2.2
          · exact ⟨rfl, Nat.le_refl _⟩

theorem scanWhitespaceAux_spec (fuel : Nat) :
    ∀ (s : LexerSource) (acc : String),
      ((scanWhitespaceAux fuel s acc).2).source = s.source ∧
        s.position.bytes ≤ ((scanWhitespaceAux fuel s acc).2).position.bytes := by
  induction fuel with
  | zero => intro s acc; exact ⟨rfl, Nat.le_refl _⟩
  | succ n ih =>
      intro s acc
      unfold scanWhitespaceAux
      cases hc : s.current with
      | none => exact ⟨rfl, Nat.le_refl _⟩
      | some c =>
          simp only
          split
          · have h2 := ih (s.next).2 (acc.push c)
            refine ⟨?_, ?_⟩
            · rw [h2.1, s.next_snd_source]
            · exact Nat.le_trans s.next_snd_bytes_le h2.2
          · split
            · exact ⟨s.next_snd_source, s.next_snd_bytes_le⟩
            · split
              · cases hn : ((s.next).2).next with
                | mk o2 s2 =>
                    cases o2 with
                    | some c2 =>
                        simp only
                        have e1 : s2 = (((s.next).2).next).2 := by rw [hn]
                        refine ⟨?_, ?_⟩
                        · rw [e1, ((s.next).2).next_snd_source, s.next_snd_source]
                        · rw [e1]
                          exact Nat.le_trans s.next_snd_bytes_le
                            ((s.next).2).next_snd_bytes_le
                    | none =>
                        simp only
                        have e1 : s2 = (((s.next).2).next).2 := by rw [hn]
                        refine ⟨?_, ?_⟩
                        · rw [e1, ((s.next).2).next_snd_source, s.next_snd_source]
                        · rw [e1]
                          exact Nat.le_trans s.next_snd_bytes_le
                            ((s.next).2).next_snd_bytes_le
              · exact ⟨rfl, Nat.le_refl _⟩

theorem scanNumberAux_spec (fuel : Nat) :
    ∀ (s : LexerSource) (acc : String),
      ((scanNumberAux fuel s acc).2).source = s.source ∧
        s.position.bytes ≤ ((scanNumberAux fuel s acc).2).position.bytes := by
  induction fuel with
  | zero => intro s acc; exact ⟨rfl, Nat.le_refl _⟩
  | succ n ih =>
      intro s acc
      unfold scanNumberAux
      cases hc : s.current with
      | none => exact ⟨rfl, Nat.le_refl _⟩
      | some c =>
          simp only
          split
          · have h2 := ih (s.next).2 (acc.push c)
            refine ⟨?_, ?_⟩
            · rw [h2.1, s.next_snd_source]
            · exact Nat.le_trans s.next_snd_bytes_le h2.2
          · exact ⟨rfl, Nat.le_refl _⟩

theorem LexerSource.current_some_lt {s : LexerSource} {c : Char}
    (h : s.current = some c) : s.position.bytes < s.source.length := by
  unfold LexerSource.current at h
  exact (List.getElem?_eq_some.mp h).1

/-- If the source is exhausted and Eof has been sent, the lexer is done. -/
theorem Lexer.process_next_none {lx : Lexer} (hc : lx.source.current = none)
    (hs : lx.sent_eof = true) : lx.process_next = none := by
  unfold Lexer.process_next LexerSource.next
  rw [hc]
  simp [hs]

theorem scanIdentifier_spec (s : LexerSource) (acc : String) :
    ((scanIdentifier s acc).2).source = s.source ∧
      s.position.bytes ≤ ((scanIdentifier s acc).2).position.bytes :=
  scanIdentifierAux_spec _ s acc

theorem scanWhitespace_spec (s : LexerSource) (acc : String) :
    ((scanWhitespace s acc).2).source = s.source ∧
      s.position.bytes ≤ ((scanWhitespace s acc).2).position.bytes :=
  scanWhitespaceAux_spec _ s acc

theorem scanNumber_spec (s : LexerSource) (acc : String) :
    ((scanNumber s acc).2).source = s.source ∧
      s.position.bytes ≤ ((scanNumber s acc).2).position.bytes :=
  scanNumberAux_spec _ s acc

/-- Case analysis of one `process_next` step from a live (`sent_eof = false`)
lexer: either the source is exhausted and the Eof token is emitted (flipping
`sent_eof`, leaving the source in place), or a non-Eof item is emitted after
consuming at least one character. -/
theorem Lexer.process_next_classify (lx : Lexer) (h : lx.sent_eof = false) :
    (∃ tok, lx.process_next = some (Except.ok tok, { lx with sent_eof := true }) ∧
      tok.token_type = TokenType.Eof ∧ lx.source.current = none)
    ∨ (∃ item lx', lx.process_next = some (item, lx') ∧ lx'.sent_eof = false ∧
      lx'.source.source = lx.source.source ∧
      lx.source.position.bytes < lx'.source.position.bytes ∧
      lx.source.position.bytes < lx.source.source.length ∧
      isEofItem item = false) := by
  cases hc : lx.source.current with
  | none =>
      left
      refine ⟨{ start_position := lx.source.position,
                end_position := lx.source.position,
                token_type := .Eof }, ?_, rfl, rfl⟩
      unfold Lexer.process_next LexerSource.next
      rw [hc]
      simp [h]
  | some c =>
      right
      have hnext : lx.source.next = (some c, (lx.source.next).2) := by
        unfold LexerSource.next
        rw [hc]
      have hbytes : ((lx.source.next).2).position.bytes =
          lx.source.position.bytes + 1 :=
        LexerSource.next_snd_bytes_of_some hc
      have hsrc : ((lx.source.next).2).source = lx.source.source :=
        lx.source.next_snd_source
      have hlt : lx.source.position.bytes < lx.source.source.length :=
        LexerSource.current_some_lt hc
      unfold Lexer.process_next
      rw [hnext]
      simp only
      split_ifs with h1 h2 h3 h4 h5 h6 h7
      · rcases hscan : scanIdentifier (lx.source.next).2 (String.singleton c)
          with ⟨ident, src2⟩
        have hspec := scanIdentifier_spec (lx.source.next).2 (String.singleton c)
        rw [hscan] at hspec
        simp only at hspec ⊢
        refine ⟨_, _, rfl, h, ?_, ?_, hlt, ?_⟩
        · show src2.source = lx.source.source
          rw [hspec.1, hsrc]
        · show lx.source.position.bytes < src2.position.bytes
          omega
        · cases htf : Symbol.try_from ident <;> simp [isEofItem, htf]
      · rcases hscan : scanWhitespace (lx.source.next).2 (String.singleton c)
          with ⟨ws, src2⟩
        have hspec := scanWhitespace_spec (lx.source.next).2 (String.singleton c)
        rw [hscan] at hspec
        simp only at hspec ⊢
        refine ⟨_, _, rfl, h, ?_, ?_, hlt, ?_⟩
        · show src2.source = lx.source.source
          rw [hspec.1, hsrc]
        · show lx.source.position.bytes < src2.position.bytes
          omega
        · simp [isEofItem]
      · rcases hscan : scanNumber (lx.source.next).2 (String.singleton c)
          with ⟨num, src2⟩
        have hspec := scanNumber_spec (lx.source.next).2 (String.singleton c)
        rw [hscan] at hspec
        simp only at hspec ⊢
        refine ⟨_, _, rfl, h, ?_, ?_, hlt, ?_⟩
        · show src2.source = lx.source.source
          rw [hspec.1, hsrc]
        · show lx.source.position.bytes < src2.position.bytes
          omega
        · simp [isEofItem]
      · rcases hcons : ((lx.source.next).2).consume '=' with ⟨b, src2⟩
        have hcsrc := ((lx.source.next).2).consume_snd_source '='
        have hcbytes := ((lx.source.next).2).consume_snd_bytes_le '='
        rw [hcons] at hcsrc hcbytes
        simp only at hcsrc hcbytes ⊢
        cases b
        · refine ⟨_, _, rfl, h, ?_, ?_, hlt, ?_⟩
          · show src2.source = lx.source.source
            rw [hcsrc, hsrc]
          · show lx.source.position.bytes < src2.position.bytes
            omega
          · simp [isEofItem]
        · refine ⟨_, _, rfl, h, ?_, ?_, hlt, ?_⟩
          · show src2.source = lx.source.source
            rw [hcsrc, hsrc]
          · show lx.source.position.bytes < src2.position.bytes
            omega
          · simp [isEofItem]
      · refine ⟨_, _, rfl, h, hsrc, ?_, hlt, ?_⟩
        · show lx.source.position.bytes < ((lx.source.next).2).position.bytes
          omega
        · simp [isEofItem]
      · refine ⟨_, _, rfl, h, hsrc, ?_, hlt, ?_⟩
        · show lx.source.position.bytes < ((lx.source.next).2).position.bytes
          omega
        · simp [isEofItem]
      · refine ⟨_, _, rfl, h, hsrc, ?_, hlt, ?_⟩
        · show lx.source.position.bytes < ((lx.source.next).2).position.bytes
          omega
        · simp [isEofItem]
      · refine ⟨_, _, rfl, h, hsrc, ?_, hlt, ?_⟩
        · show lx.source.position.bytes < ((lx.source.next).2).position.bytes
          omega
        · simp [isEofItem]

/-- Soundness of the token stream's loop variant: from a live lexer, the
stream ends in exactly one Eof token and every earlier item is not Eof. -/
theorem Lexer.tokensAux_spec :
    ∀ (fuel : Nat) (lx : Lexer), lx.sent_eof = false →
      lx.source.source.length - lx.source.position.bytes + 2 ≤ fuel →
      ∃ pre tok, Lexer.tokensAux fuel lx = pre ++ [Except.ok tok] ∧
        tok.token_type = TokenType.Eof ∧
        ∀ item ∈ pre, isEofItem item = false := by
  intro fuel
  induction fuel with
  | zero => intro lx h hb; omega
  | succ n ih =>
      intro lx h hb
      rcases lx.process_next_classify h with
        ⟨tok, heq, htype, hcur⟩ |
        ⟨item, lx', heq, hsent, hsrc, hby, hlen, hnotEof⟩
      · have hnone : Lexer.process_next { lx with sent_eof := true } = none :=
          Lexer.process_next_none hcur rfl
        have hrest : Lexer.tokensAux n { lx with sent_eof := true } = [] := by
          cases n with
          | zero => rfl
          | succ m =>
              unfold Lexer.tokensAux
              rw [hnone]
        refine ⟨[], tok, ?_, htype, by simp⟩
        unfold Lexer.tokensAux
        rw [heq]
        simp [hrest]
      · have hb' : lx'.source.source.length - lx'.source.position.bytes + 2 ≤ n := by
          rw [hsrc]
          omega
        obtain ⟨pre, tok, hEq, hT, hPre⟩ := ih lx' hsent hb'
        refine ⟨item :: pre, tok, ?_, hT, ?_⟩
        · unfold Lexer.tokensAux
          rw [heq]
          simp [hEq]
        · intro x hx
          rcases List.mem_cons.mp hx with rfl | hx
          · exact hnotEof
          · exact hPre x hx

/-- C7: for every input string, the token stream produced by driving the lexer
to exhaustion contains exactly one Eof token, and that Eof token is the final
item: every earlier item is non-Eof, and after Eof the lexer yields nothing
further (the stream simply ends). -/
theorem lexer_eof_exactly_once_final (s : String) :
    ∃ pre tok, tokenize s = pre ++ [Except.ok tok] ∧
      tok.token_type = TokenType.Eof ∧
      ∀ item ∈ pre, isEofItem item = false :=
  Lexer.tokensAux_spec _ (Lexer.new s) rfl (Nat.le_refl _)

/-- C5: evaluation of the lexer at the failing input. The `'='` branch of
`process_next` together with `LexerSource::consume` — which, as written in
full-moon/src/tokenizer/lexer.rs, tests `peek()` (one character past the
current one) instead of `current()` — makes the input `"=="` lex as two
separate `Equal` symbol tokens followed by Eof, not as the single `TwoEqual`
token that longest-match would demand. -/
theorem lexer_longest_match_code_bug :
    (tokenize "==").map itemType =
      [some (TokenType.Symbol Symbol.Equal),
       some (TokenType.Symbol Symbol.Equal),
       some TokenType.Eof] ∧
    (tokenize "==").map itemType ≠
      [some (TokenType.Symbol Symbol.TwoEqual), some TokenType.Eof] := by
  exact ⟨rfl, by decide⟩

/-- Supporting evaluation for the round-trip analysis (claim C1): on the input
`"=a="` the rewritten lexer produces no error item, yet the lexed tokens print
back (via the Display impls) as `"==="`: the mis-consumed `TwoEqual` token
swallowed the `a` without recording its text, so token-level lossless
reconstruction fails on an input that lexes without any diagnostic. -/
theorem twoEqual_reconstruction_mismatch :
    (tokenize "=a=").map itemType =
      [some (TokenType.Symbol Symbol.TwoEqual),
       some (TokenType.Symbol Symbol.Equal),
       some TokenType.Eof] ∧
    streamDisplay (tokenize "=a=") = "===" := by
  exact ⟨rfl, rfl⟩

/-! ## Binary operators

From the `make_bin_op!` macro (full-moon-common/src/ast/make_bin_op.rs) and
its invocation in full-moon-super/src/ast.rs lines 50-85.
-/

/-- The `BinOp` enum generated by `make_bin_op!` for the invocation in
full-moon-super/src/ast.rs: one variant per declared operator, each holding
its `TokenReference` (all version-gated variants included). -/
inductive BinOp where
  | Caret (token : TokenReference)
  | Percent (token : TokenReference)
  | Slash (token : TokenReference)
  | Star (token : TokenReference)
  | DoubleSlash (token : TokenReference)
  | Minus (token : TokenReference)
  | Plus (token : TokenReference)
  | TwoDots (token : TokenReference)
  | DoubleLessThan (token : TokenReference)
  | DoubleGreaterThan (token : TokenReference)
  | Ampersand (token : TokenReference)
  | Tilde (token : TokenReference)
  | Pipe (token : TokenReference)
  | GreaterThan (token : TokenReference)
  | GreaterThanEqual (token : TokenReference)
  | LessThan (token : TokenReference)
  | LessThanEqual (token : TokenReference)
  | TildeEqual (token : TokenReference)
  | TwoEqual (token : TokenReference)
  | And (token : TokenReference)
  | Or (token : TokenReference)
deriving Repr, DecidableEq

/-- `BinOp::precedence_of_token` as generated by the macro
(full-moon-common/src/ast/make_bin_op.rs lines 28-45): the expansion's inner
match over the symbol has one `_ => todo!()` arm per declared operator (the
intended `Symbol::$operator => Some($precedence)` arm is commented out), so
the first wildcard arm catches every symbol and the function panics via
`todo!()` on every Symbol token; non-Symbol token types fall through to
`None`. The panic is modelled as `Except.error ()`. -/
def BinOp.precedence_of_token (token : TokenReference) : Except Unit (Option Nat) :=
  match token.token.token_type with
  | .Symbol _ => .error ()
  | _ => .ok none

/-- The operator/precedence table declared by the `make_bin_op!` invocation in
full-moon-super/src/ast.rs lines 50-85: the `$precedence` values the generated
`precedence_of_token` was intended to return (its commented-out arm reads
`Symbol::$operator => Some($precedence)`). -/
def BinOp.declared_precedence : Symbol → Option Nat
  | .Caret => some 12
  | .Percent => some 10
  | .Slash => some 10
  | .Star => some 10
  | .DoubleSlash => some 10
  | .Minus => some 9
  | .Plus => some 9
  | .TwoDots => some 8
  | .DoubleLessThan => some 7
  | .DoubleGreaterThan => some 7
  | .Ampersand => some 6
  | .Tilde => some 5
  | .Pipe => some 4
  | .GreaterThan => some 3
  | .GreaterThanEqual => some 3
  | .LessThan => some 3
  | .LessThanEqual => some 3
  | .TildeEqual => some 3
  | .TwoEqual => some 3
  | .And => some 2
  | .Or => some 1
  | _ => none

/-- `BinOp::token` (generated by `make_bin_op!`). -/
def BinOp.token : BinOp → TokenReference
  | .Caret t | .Percent t | .Slash t | .Star t | .DoubleSlash t
  | .Minus t | .Plus t | .TwoDots t | .DoubleLessThan t | .DoubleGreaterThan t
  | .Ampersand t | .Tilde t | .Pipe t | .GreaterThan t | .GreaterThanEqual t
  | .LessThan t | .LessThanEqual t | .TildeEqual t | .TwoEqual t
  | .And t | .Or t => t

/-- `BinOpTrait::is_right_associative` for `BinOp`
(full-moon-super/src/ast.rs lines 92-94): exactly `Caret` and `TwoDots`. -/
def BinOp.is_right_associative : BinOp → Bool
  | .Caret _ => true
  | .TwoDots _ => true
  | _ => false

/-- `BinOpTrait::is_right_associative_token`
(full-moon-super/src/ast.rs lines 96-105). -/
def BinOp.is_right_associative_token (token : TokenReference) : Bool :=
  token.token.token_type == .Symbol .Caret
    || token.token.token_type == .Symbol .TwoDots

/-- A trivia-free `TokenReference` holding a symbol token (used to evaluate
the operator table at concrete tokens). -/
def symbolTokenRef (s : Symbol) : TokenReference :=
  { leading_trivia := [],
    token := { start_position := ⟨0, 0, 0⟩, end_position := ⟨0, 0, 0⟩,
               token_type := .Symbol s },
    trailing_trivia := [] }

/-- C4: the generated `precedence_of_token` hits `todo!()` (panics) on every
Symbol token instead of returning the declared table value — the mapping arm
is commented out, so the claim's table only exists in the declaration
(`declared_precedence`), which does match the specified values; the
right-associativity predicate, which is implemented, holds exactly for
exponentiation (`^`) and concatenation (`..`). -/
theorem binop_precedence_table_code_bug :
    (∀ s : Symbol, BinOp.precedence_of_token (symbolTokenRef s) = .error ())
    ∧ BinOp.precedence_of_token
        { leading_trivia := [],
          token := { start_position := ⟨0, 0, 0⟩, end_position := ⟨0, 0, 0⟩,
                     token_type := .Identifier "x" },
          trailing_trivia := [] } = .ok none
    ∧ (∀ op : BinOp, op.is_right_associative = true ↔
        ((∃ t, op = BinOp.Caret t) ∨ (∃ t, op = BinOp.TwoDots t)))
    ∧ BinOp.declared_precedence Symbol.Or = some 1
    ∧ BinOp.declared_precedence Symbol.And = some 2
    ∧ BinOp.declared_precedence Symbol.GreaterThan = some 3
    ∧ BinOp.declared_precedence Symbol.GreaterThanEqual = some 3
    ∧ BinOp.declared_precedence Symbol.LessThan = some 3
    ∧ BinOp.declared_precedence Symbol.LessThanEqual = some 3
    ∧ BinOp.declared_precedence Symbol.TildeEqual = some 3
    ∧ BinOp.declared_precedence Symbol.TwoEqual = some 3
    ∧ BinOp.declared_precedence Symbol.Pipe = some 4
    ∧ BinOp.declared_precedence Symbol.Tilde = some 5
    ∧ BinOp.declared_precedence Symbol.Ampersand = some 6
    ∧ BinOp.declared_precedence Symbol.DoubleLessThan = some 7
    ∧ BinOp.declared_precedence Symbol.DoubleGreaterThan = some 7
    ∧ BinOp.declared_precedence Symbol.TwoDots = some 8
    ∧ BinOp.declared_precedence Symbol.Plus = some 9
    ∧ BinOp.declared_precedence Symbol.Minus = some 9
    ∧ BinOp.declared_precedence Symbol.Star = some 10
    ∧ BinOp.declared_precedence Symbol.Slash = some 10
    ∧ BinOp.declared_precedence Symbol.DoubleSlash = some 10
    ∧ BinOp.declared_precedence Symbol.Percent = some 10
    ∧ BinOp.declared_precedence Symbol.Caret = some 12 := by
  refine ⟨fun s => rfl, rfl, ?_, rfl, rfl, rfl, rfl, rfl, rfl, rfl, rfl, rfl,
    rfl, rfl, rfl, rfl, rfl, rfl, rfl, rfl, rfl, rfl, rfl, rfl⟩
  intro op
  cases op <;> simp [BinOp.is_right_associative]

/-! ## Punctuated sequences

From `full-moon-common/src/ast/punctuated.rs`.
-/

/-- `Pair` (full-moon-common/src/ast/punctuated.rs lines 338-350): a node with
or without trailing punctuation. -/
inductive Pair (T : Type) where
  | End (value : T)
  | Punctuated (value : T) (punctuation : TokenReference)
deriving Repr, DecidableEq

/-- `Pair::new`. -/
def Pair.new {T : Type} (value : T) (punctuation : Option TokenReference) : Pair T :=
  match punctuation with
  | none => .End value
  | some punctuation => .Punctuated value punctuation

/-- `Pair::into_value`. -/
def Pair.into_value {T : Type} : Pair T → T
  | .End value => value
  | .Punctuated value _ => value

/-- `Pair::punctuation`. -/
def Pair.punctuation {T : Type} : Pair T → Option TokenReference
  | .End _ => none
  | .Punctuated _ punctuation => some punctuation

/-- `Punctuated` (full-moon-common/src/ast/punctuated.rs lines 36-38). -/
structure Punctuated (T : Type) where
  pairs : List (Pair T)
deriving Repr, DecidableEq

/-- `Punctuated::new`. -/
def Punctuated.new {T : Type} : Punctuated T := ⟨[]⟩

/-- `Punctuated::push`. -/
def Punctuated.push {T : Type} (p : Punctuated T) (pair : Pair T) : Punctuated T :=
  ⟨p.pairs ++ [pair]⟩

/-- `Punctuated::push_punctuated` (full-moon-common/src/ast/punctuated.rs
lines 188-201): pop the last pair (panicking when there is none), refuse
(panic) when it already carries punctuation, otherwise re-push it as a
`Punctuated` pair with the given separator and append the new value as an
`End` pair (`Pair::new(value, None)`). Panics are modelled as `Except.error`
carrying the Rust panic message. -/
def Punctuated.push_punctuated {T : Type} (p : Punctuated T) (value : T)
    (punctuation : TokenReference) : Except String (Punctuated T) :=
  match p.pairs.getLast? with
  | none =>
      .error "push_punctuated adds the punctuation onto the last element, but there are no elements"
  | some last_pair =>
      if (last_pair.punctuation).isSome then
        .error "push_punctuated adds the punctuation onto the last element, but the last element already has punctuation"
      else
        .ok ⟨p.pairs.dropLast ++ [.Punctuated last_pair.into_value punctuation,
                                  .End value]⟩

/-- The spec's Punctuated invariant: every pair other than the final one is a
`Punctuated` pair (it carries its separator); only the final pair may be
`End`; the empty sequence is valid. -/
def Punctuated.validPairs {T : Type} (p : Punctuated T) : Prop :=
  ∀ q ∈ p.pairs.dropLast, (Pair.punctuation q).isSome = true

/-- Modelled from the spec: the grammar parsers (module
`full-moon/src/ast/parsers.rs`, which is not in src/) assemble each punctuated
sequence by pushing the first element as an unpunctuated pair and, for each
following separator and element, attaching the separator to the previous last
element through `push_punctuated` ("Will apply the punctuation to the last
item, which must exist"); the spec's glossary describes the result as "an
ordered list of grammar elements interleaved with separator tokens". -/
def Punctuated.fromParse {T : Type} (first : T)
    (rest : List (TokenReference × T)) : Except String (Punctuated T) :=
  rest.foldlM (fun acc sep_value => acc.push_punctuated sep_value.2 sep_value.1)
    ((Punctuated.new).push (Pair.End first))

theorem Punctuated.fromParse_aux {T : Type} :
    ∀ (rest : List (TokenReference × T)) (init : List (Pair T)) (lastv : T),
      (∀ q ∈ init, (Pair.punctuation q).isSome = true) →
      ∃ init2 lv2,
        List.foldlM (fun acc sv => Punctuated.push_punctuated acc sv.2 sv.1)
          (⟨init ++ [Pair.End lastv]⟩ : Punctuated T) rest
          = .ok ⟨init2 ++ [Pair.End lv2]⟩ ∧
        ∀ q ∈ init2, (Pair.punctuation q).isSome = true := by
  intro rest
  induction rest with
  | nil =>
      intro init lastv hinit
      exact ⟨init, lastv, rfl, hinit⟩
  | cons sv rest ih =>
      intro init lastv hinit
      have hpush : Punctuated.push_punctuated (⟨init ++ [Pair.End lastv]⟩ : Punctuated T)
          sv.2 sv.1
          = .ok ⟨(init ++ [Pair.Punctuated lastv sv.1]) ++ [Pair.End sv.2]⟩ := by
        unfold Punctuated.push_punctuated
        simp [Pair.punctuation, Pair.into_value, List.dropLast_concat]
      obtain ⟨init2, lv2, hEq, hAll⟩ :=
        ih (init ++ [Pair.Punctuated lastv sv.1]) sv.2 (by
          intro q hq
          rcases List.mem_append.mp hq with hq | hq
          · exact hinit q hq
          · rcases List.mem_singleton.mp hq with rfl
            rfl)
      refine ⟨init2, lv2, ?_, hAll⟩
      rw [List.foldlM_cons, hpush]
      simpa using hEq

/-- C6: the empty punctuated sequence satisfies the invariant, and every
sequence assembled by the parsers' construction discipline (first element,
then separator-and-element steps through `push_punctuated`) is built without
panicking and satisfies the invariant: all pairs except the final one are
`Punctuated`, only the final one is `End`. -/
theorem punctuated_invariant_holds :
    (∀ (T : Type), (Punctuated.new (T := T)).validPairs)
    ∧ (∀ (T : Type) (first : T) (rest : List (TokenReference × T)),
        ∃ p, Punctuated.fromParse first rest = .ok p ∧ p.validPairs) := by
  constructor
  · intro T q hq
    simp [Punctuated.new] at hq
  · intro T first rest
    obtain ⟨init2, lv2, hEq, hAll⟩ :=
      Punctuated.fromParse_aux rest [] first (by simp)
    refine ⟨⟨init2 ++ [Pair.End lv2]⟩, ?_, ?_⟩
    · unfold Punctuated.fromParse
      simpa [Punctuated.new, Punctuated.push] using hEq
    · intro q hq
      rw [List.dropLast_concat] at hq
      exact hAll q hq

/-! ## The lazy single-symbol construction mode

From `TokenReference::symbol_specific_lua_version`
(full-moon-common/src/tokenizer.rs lines 430-521).
-/

/-- `LexerResult` (full-moon-common/src/lexer.rs lines 30-37). -/
inductive LexerResult (T : Type) where
  | Ok (value : T)
  | Fatal (errors : List TokenizerError)
  | Recovered (value : T) (errors : List TokenizerError)
deriving Repr, DecidableEq

/-- Whether a token is a whitespace token. -/
def isWhitespaceTok (t : Token) : Bool :=
  match t.token_type with
  | .Whitespace _ => true
  | _ => false

/-- Whether a token is a symbol token. -/
def isSymbolTok (t : Token) : Bool :=
  match t.token_type with
  | .Symbol _ => true
  | _ => false

/-- Whether a token is the Eof token. -/
def isEofTok (t : Token) : Bool :=
  t.token_type == .Eof

/-- The first loop of `symbol_specific_lua_version` (lines 438-478): drain
whitespace tokens into the leading trivia until the symbol is found. The
stream is the sequence of `process_next()` results of `L::Lex::new_lazy(text)`
(the concrete lexer is behind the `Language` trait); an exhausted stream
models `process_next() == None`, whose arm is `unreachable!` — a panic,
modelled as `none`, as are `errors.remove(0)` on an empty error vector and
`unwrap` on an empty token text. -/
def symbol_loop_one (text : String) :
    List (LexerResult Token) → List Token →
      Option (Except TokenizerErrorType (List Token × Token × List (LexerResult Token)))
  | [], _ => none
  | item :: rest, leading_trivia =>
      match item with
      | .Ok t =>
          match t.token_type with
          | .Whitespace _ => symbol_loop_one text rest (leading_trivia ++ [t])
          | .Symbol _ => some (.ok (leading_trivia, t, rest))
          | .Eof => some (.error (.InvalidSymbol text))
          | _ =>
              match (t.display).data with
              | [] => none
              | c :: _ => some (.error (.UnexpectedToken c))
      | .Fatal errors =>
          match errors with
          | [] => none
          | e :: _ => some (.error e.error)
      | .Recovered _ errors =>
          match errors with
          | [] => none
          | e :: _ => some (.error e.error)

/-- The second loop of `symbol_specific_lua_version` (lines 482-514): drain
whitespace tokens into the trailing trivia until Eof. -/
def symbol_loop_two :
    List (LexerResult Token) → List Token →
      Option (Except TokenizerErrorType (List Token))
  | [], _ => none
  | item :: rest, trailing_trivia =>
      match item with
      | .Ok t =>
          match t.token_type with
          | .Whitespace _ => symbol_loop_two rest (trailing_trivia ++ [t])
          | .Eof => some (.ok trailing_trivia)
          | _ =>
              match (t.display).data with
              | [] => none
              | c :: _ => some (.error (.UnexpectedToken c))
      | .Fatal errors =>
          match errors with
          | [] => none
          | e :: _ => some (.error e.error)
      | .Recovered _ errors =>
          match errors with
          | [] => none
          | e :: _ => some (.error e.error)

/-- `TokenReference::symbol_specific_lua_version`
(full-moon-common/src/tokenizer.rs lines 430-521), over the stream of
`process_next()` results of the lazily-created lexer. -/
def symbol_specific_lua_version (text : String)
    (stream : List (LexerResult Token)) :
    Option (Except TokenizerErrorType TokenReference) :=
  match symbol_loop_one text stream [] with
  | none => none
  | some (.error e) => some (.error e)
  | some (.ok (leading_trivia, symbol, rest)) =>
      match symbol_loop_two rest [] with
      | none => none
      | some (.error e) => some (.error e)
      | some (.ok trailing_trivia) =>
          some (.ok { leading_trivia, token := symbol, trailing_trivia })

theorem isWhitespaceTok_iff (t : Token) :
    isWhitespaceTok t = true ↔ ∃ cs, t.token_type = .Whitespace cs := by
  unfold isWhitespaceTok
  cases t.token_type <;> simp

theorem isSymbolTok_iff (t : Token) :
    isSymbolTok t = true ↔ ∃ s, t.token_type = .Symbol s := by
  unfold isSymbolTok
  cases t.token_type <;> simp

theorem isEofTok_iff (t : Token) :
    isEofTok t = true ↔ t.token_type = .Eof := by
  unfold isEofTok
  cases t.token_type <;> simp

theorem symbol_loop_one_leading_ws (text : String) :
    ∀ (lw : List Token) (acc : List Token) (stream : List (LexerResult Token)),
      (∀ t ∈ lw, isWhitespaceTok t = true) →
      symbol_loop_one text (lw.map .Ok ++ stream) acc
        = symbol_loop_one text stream (acc ++ lw) := by
  intro lw
  induction lw with
  | nil => intro acc stream _; simp
  | cons t lw ih =>
      intro acc stream hws
      obtain ⟨cs, hty⟩ := (isWhitespaceTok_iff t).mp (hws t (by simp))
      have step : symbol_loop_one text ((t :: lw).map .Ok ++ stream) acc
          = symbol_loop_one text (lw.map .Ok ++ stream) (acc ++ [t]) := by
        rw [List.map_cons, List.cons_append]
        conv_lhs => rw [symbol_loop_one]
        simp [hty]
      rw [step, ih (acc ++ [t]) stream (fun x hx => hws x (by simp [hx]))]
      simp

theorem symbol_loop_two_leading_ws :
    ∀ (tw : List Token) (acc : List Token) (stream : List (LexerResult Token)),
      (∀ t ∈ tw, isWhitespaceTok t = true) →
      symbol_loop_two (tw.map .Ok ++ stream) acc
        = symbol_loop_two stream (acc ++ tw) := by
  intro tw
  induction tw with
  | nil => intro acc stream _; simp
  | cons t tw ih =>
      intro acc stream hws
      obtain ⟨cs, hty⟩ := (isWhitespaceTok_iff t).mp (hws t (by simp))
      have step : symbol_loop_two ((t :: tw).map .Ok ++ stream) acc
          = symbol_loop_two (tw.map .Ok ++ stream) (acc ++ [t]) := by
        rw [List.map_cons, List.cons_append]
        conv_lhs => rw [symbol_loop_two]
        simp [hty]
      rw [step, ih (acc ++ [t]) stream (fun x hx => hws x (by simp [hx]))]
      simp

theorem symbol_loop_one_symbol_head (text : String) {t : Token} {s : Symbol}
    (hty : t.token_type = .Symbol s) (rest : List (LexerResult Token))
    (acc : List Token) :
    symbol_loop_one text (.Ok t :: rest) acc = some (.ok (acc, t, rest)) := by
  conv_lhs => rw [symbol_loop_one]
  simp [hty]

theorem symbol_loop_one_eof_head (text : String) {t : Token}
    (hty : t.token_type = .Eof) (rest : List (LexerResult Token))
    (acc : List Token) :
    symbol_loop_one text (.Ok t :: rest) acc
      = some (.error (.InvalidSymbol text)) := by
  conv_lhs => rw [symbol_loop_one]
  simp [hty]

theorem symbol_loop_one_other_head (text : String) {t : Token} {c : Char}
    {cs : List Char}
    (hw : isWhitespaceTok t = false) (hs : isSymbolTok t = false)
    (he : isEofTok t = false) (hd : (t.display).data = c :: cs)
    (rest : List (LexerResult Token)) (acc : List Token) :
    symbol_loop_one text (.Ok t :: rest) acc
      = some (.error (.UnexpectedToken c)) := by
  unfold isWhitespaceTok at hw
  unfold isSymbolTok at hs
  unfold isEofTok at he
  conv_lhs => rw [symbol_loop_one]
  cases hty : t.token_type <;> rw [hty] at hw hs he <;> simp_all [hd]

theorem symbol_loop_two_eof_head {t : Token} (hty : t.token_type = .Eof)
    (rest : List (LexerResult Token)) (acc : List Token) :
    symbol_loop_two (.Ok t :: rest) acc = some (.ok acc) := by
  conv_lhs => rw [symbol_loop_two]
  simp [hty]

theorem symbol_loop_two_other_head {t : Token} {c : Char} {cs : List Char}
    (hw : isWhitespaceTok t = false) (he : isEofTok t = false)
    (hd : (t.display).data = c :: cs)
    (rest : List (LexerResult Token)) (acc : List Token) :
    symbol_loop_two (.Ok t :: rest) acc
      = some (.error (.UnexpectedToken c)) := by
  unfold isWhitespaceTok at hw
  unfold isEofTok at he
  conv_lhs => rw [symbol_loop_two]
  cases hty : t.token_type <;> rw [hty] at hw he <;> simp_all [hd]

theorem symbol_loop_one_ok_shape (text : String) :
    ∀ (stream : List (LexerResult Token)) (acc lw : List Token) (sym : Token)
      (rest : List (LexerResult Token)),
      symbol_loop_one text stream acc = some (.ok (lw, sym, rest)) →
      ∃ ws, stream = ws.map .Ok ++ [.Ok sym] ++ rest ∧ lw = acc ++ ws ∧
        (∀ t ∈ ws, isWhitespaceTok t = true) ∧ isSymbolTok sym = true := by
  intro stream
  induction stream with
  | nil =>
      intro acc lw sym rest h
      rw [symbol_loop_one.eq_def] at h
      exact absurd h (by simp)
  | cons item st ih =>
      intro acc lw sym rest h
      rw [symbol_loop_one.eq_def] at h
      cases item with
      | Ok t =>
          simp only at h
          cases hty : t.token_type <;> rw [hty] at h
          case Eof => simp at h
          case Symbol s =>
              simp only [Option.some.injEq, Except.ok.injEq, Prod.mk.injEq] at h
              obtain ⟨h1, h2, h3⟩ := h
              refine ⟨[], ?_, ?_, by simp, ?_⟩
              · simp [h2, h3]
              · simp [h1]
              · rw [← h2, isSymbolTok_iff]
                exact ⟨s, hty⟩
          case Whitespace cs =>
              obtain ⟨ws, hstream, hlw, hws, hsym⟩ := ih (acc ++ [t]) lw sym rest h
              refine ⟨t :: ws, ?_, ?_, ?_, hsym⟩
              · simp [hstream]
              · simp [hlw]
              · intro u hu
                rcases List.mem_cons.mp hu with rfl | hu
                · rw [isWhitespaceTok_iff]
                  exact ⟨cs, hty⟩
                · exact hws u hu
          all_goals
            revert h
            cases hdata : (t.display).data <;> simp
      | Fatal errors =>
          cases errors <;> simp at h
      | Recovered v errors =>
          cases errors <;> simp at h

theorem symbol_loop_two_ok_shape :
    ∀ (stream : List (LexerResult Token)) (acc tw : List Token),
      symbol_loop_two stream acc = some (.ok tw) →
      ∃ ws eofT rest, stream = ws.map .Ok ++ [.Ok eofT] ++ rest ∧
        tw = acc ++ ws ∧
        (∀ t ∈ ws, isWhitespaceTok t = true) ∧ isEofTok eofT = true := by
  intro stream
  induction stream with
  | nil =>
      intro acc tw h
      rw [symbol_loop_two.eq_def] at h
      exact absurd h (by simp)
  | cons item st ih =>
      intro acc tw h
      rw [symbol_loop_two.eq_def] at h
      cases item with
      | Ok t =>
          simp only at h
          cases hty : t.token_type <;> rw [hty] at h
          case Eof =>
              simp only [Option.some.injEq, Except.ok.injEq] at h
              refine ⟨[], t, st, by simp, by simp [h], by simp, ?_⟩
              rw [isEofTok_iff]
              exact hty
          case Whitespace cs =>
              obtain ⟨ws, eofT, rest, hstream, htw, hws, heof⟩ :=
                ih (acc ++ [t]) tw h
              refine ⟨t :: ws, eofT, rest, ?_, ?_, ?_, heof⟩
              · simp [hstream]
              · simp [htw]
              · intro u hu
                rcases List.mem_cons.mp hu with rfl | hu
                · rw [isWhitespaceTok_iff]
                  exact ⟨cs, hty⟩
                · exact hws u hu
          all_goals
            revert h
            cases hdata : (t.display).data <;> simp
      | Fatal errors =>
          cases errors <;> simp at h
      | Recovered v errors =>
          cases errors <;> simp at h

/-- C9: the lazy single-symbol construction mode succeeds exactly when the
fragment lexes as optional leading whitespace, then exactly one Symbol token,
then optional trailing whitespace, then immediate Eof — returning a
`TokenReference` with exactly that whitespace as leading/trailing trivia and
that symbol as the token; Eof reached before any symbol fails with
`InvalidSymbol`, and a token of any other kind (before or after the symbol)
fails with `UnexpectedToken` on the first character of its text. -/
theorem symbol_specific_lua_version_spec :
    (∀ (text : String) (lw : List Token) (sym : Token) (tw : List Token)
        (eofT : Token) (rest : List (LexerResult Token)),
      (∀ t ∈ lw, isWhitespaceTok t = true) → isSymbolTok sym = true →
      (∀ t ∈ tw, isWhitespaceTok t = true) → isEofTok eofT = true →
      symbol_specific_lua_version text
          (lw.map .Ok ++ [.Ok sym] ++ tw.map .Ok ++ [.Ok eofT] ++ rest)
        = some (.ok { leading_trivia := lw, token := sym,
                      trailing_trivia := tw }))
    ∧ (∀ (text : String) (stream : List (LexerResult Token))
        (tr : TokenReference),
      symbol_specific_lua_version text stream = some (.ok tr) →
      ∃ eofT rest,
        stream = tr.leading_trivia.map .Ok ++ [.Ok tr.token]
          ++ tr.trailing_trivia.map .Ok ++ [.Ok eofT] ++ rest ∧
        (∀ t ∈ tr.leading_trivia, isWhitespaceTok t = true) ∧
        isSymbolTok tr.token = true ∧
        (∀ t ∈ tr.trailing_trivia, isWhitespaceTok t = true) ∧
        isEofTok eofT = true)
    ∧ (∀ (text : String) (lw : List Token) (eofT : Token)
        (rest : List (LexerResult Token)),
      (∀ t ∈ lw, isWhitespaceTok t = true) → isEofTok eofT = true →
      symbol_specific_lua_version text (lw.map .Ok ++ [.Ok eofT] ++ rest)
        = some (.error (.InvalidSymbol text)))
    ∧ (∀ (text : String) (lw : List Token) (t : Token) (c : Char)
        (cs : List Char) (rest : List (LexerResult Token)),
      (∀ u ∈ lw, isWhitespaceTok u = true) →
      isWhitespaceTok t = false → isSymbolTok t = false → isEofTok t = false →
      (t.display).data = c :: cs →
      symbol_specific_lua_version text (lw.map .Ok ++ [.Ok t] ++ rest)
        = some (.error (.UnexpectedToken c)))
    ∧ (∀ (text : String) (lw : List Token) (sym : Token) (tw : List Token)
        (t : Token) (c : Char) (cs : List Char)
        (rest : List (LexerResult Token)),
      (∀ u ∈ lw, isWhitespaceTok u = true) → isSymbolTok sym = true →
      (∀ u ∈ tw, isWhitespaceTok u = true) →
      isWhitespaceTok t = false → isEofTok t = false →
      (t.display).data = c :: cs →
      symbol_specific_lua_version text
          (lw.map .Ok ++ [.Ok sym] ++ tw.map .Ok ++ [.Ok t] ++ rest)
        = some (.error (.UnexpectedToken c))) := by
  refine ⟨?_, ?_, ?_, ?_, ?_⟩
  · intro text lw sym tw eofT rest hlw hsym htw heof
    obtain ⟨s, hsymty⟩ := (isSymbolTok_iff sym).mp hsym
    have heofty := (isEofTok_iff eofT).mp heof
    unfold symbol_specific_lua_version
    rw [List.append_assoc, List.append_assoc, List.append_assoc,
        symbol_loop_one_leading_ws text lw [] _ hlw]
    simp only [List.singleton_append, List.nil_append]
    rw [symbol_loop_one_symbol_head text hsymty]
    simp only
    rw [symbol_loop_two_leading_ws tw [] _ htw]
    simp only [List.singleton_append, List.nil_append]
    rw [symbol_loop_two_eof_head heofty]
  · intro text stream tr h
    unfold symbol_specific_lua_version at h
    rcases h1 : symbol_loop_one text stream [] with _ | r1
    · rw [h1] at h
      simp at h
    rcases r1 with e1 | ⟨lw, sym, rest1⟩
    · rw [h1] at h
      simp at h
    rw [h1] at h
    simp only at h
    rcases h2 : symbol_loop_two rest1 [] with _ | r2
    · rw [h2] at h
      simp at h
    rcases r2 with e2 | tw
    · rw [h2] at h
      simp at h
    rw [h2] at h
    simp only [Option.some.injEq, Except.ok.injEq] at h
    obtain ⟨ws1, hstream1, hlw, hws1, hsym⟩ :=
      symbol_loop_one_ok_shape text stream [] lw sym rest1 h1
    obtain ⟨ws2, eofT, rest2, hstream2, htw, hws2, heof⟩ :=
      symbol_loop_two_ok_shape rest1 [] tw h2
    refine ⟨eofT, rest2, ?_, ?_, ?_, ?_, heof⟩
    · rw [← h]
      simp only
      rw [hstream1, hstream2]
      simp [hlw, htw]
    · rw [← h]
      simp only
      intro t ht
      rw [hlw] at ht
      exact hws1 t (by simpa using ht)
    · rw [← h]
      simpa using hsym
    · rw [← h]
      simp only
      intro t ht
      rw [htw] at ht
      exact hws2 t (by simpa using ht)
  · intro text lw eofT rest hlw heof
    have heofty := (isEofTok_iff eofT).mp heof
    unfold symbol_specific_lua_version
    rw [List.append_assoc, symbol_loop_one_leading_ws text lw [] _ hlw]
    simp only [List.singleton_append, List.nil_append]
    rw [symbol_loop_one_eof_head text heofty]
  · intro text lw t c cs rest hlw hw hs he hd
    unfold symbol_specific_lua_version
    rw [List.append_assoc, symbol_loop_one_leading_ws text lw [] _ hlw]
    simp only [List.singleton_append, List.nil_append]
    rw [symbol_loop_one_other_head text hw hs he hd]
  · intro text lw sym tw t c cs rest hlw hsym htw hw he hd
    obtain ⟨s, hsymty⟩ := (isSymbolTok_iff sym).mp hsym
    unfold symbol_specific_lua_version
    rw [List.append_assoc, List.append_assoc, List.append_assoc,
        symbol_loop_one_leading_ws text lw [] _ hlw]
    simp only [List.singleton_append, List.nil_append]
    rw [symbol_loop_one_symbol_head text hsymty]
    simp only
    rw [symbol_loop_two_leading_ws tw [] _ htw]
    simp only [List.singleton_append, List.nil_append]
    rw [symbol_loop_two_other_head hw he hd]

/-- A sample whitespace token. -/
def sampleWs : Token :=
  { start_position := ⟨0, 1, 1⟩, end_position := ⟨1, 1, 2⟩,
    token_type := .Whitespace " " }

/-- A sample `=` symbol token. -/
def sampleEq : Token :=
  { start_position := ⟨1, 1, 2⟩, end_position := ⟨2, 1, 3⟩,
    token_type := .Symbol .Equal }

/-- A sample Eof token. -/
def sampleEof : Token :=
  { start_position := ⟨3, 1, 4⟩, end_position := ⟨3, 1, 4⟩,
    token_type := .Eof }

/-- Witness for C9: the success case evaluated on the concrete stream lexed
from `" = "` (whitespace, `=`, whitespace, Eof). -/
theorem symbol_specific_lua_version_spec_witness :
    symbol_specific_lua_version " = "
        ([sampleWs].map .Ok ++ [.Ok sampleEq] ++ [sampleWs].map .Ok
          ++ [.Ok sampleEof] ++ [])
      = some (.ok { leading_trivia := [sampleWs], token := sampleEq,
                    trailing_trivia := [sampleWs] }) :=
  symbol_specific_lua_version_spec.1 " = " [sampleWs] sampleEq [sampleWs]
    sampleEof [] (by decide) (by decide) (by decide) (by decide)

/-! ## The token-flattening traversal

From `full-moon-common/src/node.rs`.
-/

/-- The items of a `Tokens` worklist (full-moon-common/src/node.rs lines
52-73), modelled as a rose tree: `ref` is `TokenItem::TokenReference` (a leaf
token) and `more` is `TokenItem::MoreTokens`, holding the sub-node's own
`tokens()` worklist (for every `Node` implementor, `tokens()` lists its
members' items in document order). -/
inductive TokenTree where
  | ref (token : TokenReference)
  | more (items : List TokenTree)
deriving Repr

mutual

/-- The size of one worklist item (the iterator's loop variant). -/
def TokenTree.size : TokenTree → Nat
  | .ref _ => 1
  | .more items => 1 + itemsSize items

/-- The total size of a worklist. -/
def itemsSize : List TokenTree → Nat
  | [] => 0
  | t :: ts => t.size + itemsSize ts

end

theorem itemsSize_append : ∀ (a b : List TokenTree),
    itemsSize (a ++ b) = itemsSize a + itemsSize b
  | [], b => by simp [itemsSize]
  | t :: ts, b => by
      show TokenTree.size t + itemsSize (ts ++ b)
        = (TokenTree.size t + itemsSize ts) + itemsSize b
      have h := itemsSize_append ts b
      omega

/-- `Iterator::next` for `Tokens` (full-moon-common/src/node.rs lines 75-93):
remove the front item; a leaf is returned with the remaining worklist; an
unexpanded node is expanded in place (its items are prepended) and iteration
continues. `none` means the worklist was exhausted (and is now empty). -/
def Tokens.next : List TokenTree → Option (TokenReference × List TokenTree)
  | [] => none
  | .ref t :: rest => some (t, rest)
  | .more its :: rest => Tokens.next (its ++ rest)
termination_by items => itemsSize items
decreasing_by
  rw [itemsSize_append]
  show itemsSize its + itemsSize rest < (1 + itemsSize its) + itemsSize rest
  omega

/-- `DoubleEndedIterator::next_back` for `Tokens` (full-moon-common/src/node.rs
lines 95-110): pop the last item; a leaf is returned with the remaining
worklist; an unexpanded node's items are appended at the back and iteration
continues. -/
def Tokens.next_back (items : List TokenTree) :
    Option (TokenReference × List TokenTree) :=
  match h : items.getLast? with
  | none => none
  | some (.ref t) => some (t, items.dropLast)
  | some (.more its) => Tokens.next_back (items.dropLast ++ its)
termination_by itemsSize items
decreasing_by
  obtain ⟨l2, hl⟩ := List.getLast?_eq_some_iff.mp h
  rw [hl, List.dropLast_concat, itemsSize_append, itemsSize_append]
  simp only [itemsSize, TokenTree.size]
  omega

/-- The document-order flattening of a worklist into its leaf tokens: the
sequence of tokens `Tokens::next` yields when driven forward to exhaustion. -/
def Tokens.flatten : List TokenTree → List TokenReference
  | [] => []
  | .ref t :: rest => t :: Tokens.flatten rest
  | .more its :: rest => Tokens.flatten (its ++ rest)
termination_by items => itemsSize items
decreasing_by
  · show itemsSize rest < 1 + itemsSize rest
    omega
  · rw [itemsSize_append]
    show itemsSize its + itemsSize rest < (1 + itemsSize its) + itemsSize rest
    omega

theorem Tokens.flatten_append : ∀ (a : List TokenTree),
    ∀ (b : List TokenTree),
      Tokens.flatten (a ++ b) = Tokens.flatten a ++ Tokens.flatten b := by
  intro a
  induction a using Tokens.flatten.induct with
  | case1 =>
      intro b
      rw [show Tokens.flatten ([] : List TokenTree) = [] from by rw [Tokens.flatten]]
      simp
  | case2 t rest ih =>
      intro b
      rw [List.cons_append]
      rw [show Tokens.flatten (TokenTree.ref t :: (rest ++ b))
            = t :: Tokens.flatten (rest ++ b) from by rw [Tokens.flatten]]
      rw [show Tokens.flatten (TokenTree.ref t :: rest)
            = t :: Tokens.flatten rest from by rw [Tokens.flatten]]
      rw [ih b]
      rfl
  | case3 its rest ih =>
      intro b
      rw [List.cons_append]
      rw [show Tokens.flatten (TokenTree.more its :: (rest ++ b))
            = Tokens.flatten (its ++ (rest ++ b)) from by rw [Tokens.flatten]]
      rw [show Tokens.flatten (TokenTree.more its :: rest)
            = Tokens.flatten (its ++ rest) from by rw [Tokens.flatten]]
      rw [← List.append_assoc]
      exact ih b

theorem Tokens.next_some : ∀ (items : List TokenTree) (t : TokenReference)
    (rest : List TokenTree), Tokens.next items = some (t, rest) →
    Tokens.flatten items = t :: Tokens.flatten rest := by
  intro items
  induction items using Tokens.next.induct with
  | case1 =>
      intro t rest h
      simp [Tokens.next] at h
  | case2 t' rest' =>
      intro t rest h
      simp only [Tokens.next, Option.some.injEq, Prod.mk.injEq] at h
      obtain ⟨rfl, rfl⟩ := h
      rw [Tokens.flatten]
  | case3 its rest' ih =>
      intro t rest h
      rw [show Tokens.flatten (TokenTree.more its :: rest')
            = Tokens.flatten (its ++ rest') from by rw [Tokens.flatten]]
      exact ih t rest (by rw [← h, Tokens.next])

theorem Tokens.next_none : ∀ (items : List TokenTree),
    Tokens.next items = none → Tokens.flatten items = [] := by
  intro items
  induction items using Tokens.next.induct with
  | case1 => intro _; rw [Tokens.flatten]
  | case2 t' rest' => intro h; simp [Tokens.next] at h
  | case3 its rest' ih =>
      intro h
      rw [show Tokens.flatten (TokenTree.more its :: rest')
            = Tokens.flatten (its ++ rest') from by rw [Tokens.flatten]]
      exact ih (by rw [← h, Tokens.next])

theorem Tokens.next_back_getLast_none {items : List TokenTree}
    (h : items.getLast? = none) : Tokens.next_back items = none := by
  rw [Tokens.next_back.eq_def]
  split <;> simp_all

theorem Tokens.next_back_getLast_ref {items : List TokenTree}
    {t : TokenReference} (h : items.getLast? = some (.ref t)) :
    Tokens.next_back items = some (t, items.dropLast) := by
  rw [Tokens.next_back.eq_def]
  split <;> simp_all

theorem Tokens.next_back_getLast_more {items : List TokenTree}
    {its : List TokenTree} (h : items.getLast? = some (.more its)) :
    Tokens.next_back items = Tokens.next_back (items.dropLast ++ its) := by
  rw [Tokens.next_back.eq_def]
  split <;> simp_all

theorem TokenTree.size_pos : ∀ (t : TokenTree), 1 ≤ t.size
  | .ref _ => Nat.le_refl _
  | .more items => by
      show 1 ≤ 1 + itemsSize items
      omega

theorem itemsSize_eq_zero {items : List TokenTree}
    (h : itemsSize items = 0) : items = [] := by
  cases items with
  | nil => rfl
  | cons t ts =>
      exfalso
      have h1 := TokenTree.size_pos t
      have h2 : itemsSize (t :: ts) = t.size + itemsSize ts := rfl
      omega

theorem Tokens.next_back_some : ∀ (n : Nat) (items : List TokenTree)
    (t : TokenReference) (rest : List TokenTree), itemsSize items ≤ n →
    Tokens.next_back items = some (t, rest) →
    Tokens.flatten items = Tokens.flatten rest ++ [t] := by
  intro n
  induction n with
  | zero =>
      intro items t rest hsz h
      have : items = [] := itemsSize_eq_zero (Nat.le_zero.mp hsz)
      subst this
      have hnil : (([] : List TokenTree)).getLast? = none := rfl
      rw [Tokens.next_back_getLast_none hnil] at h
      exact absurd h (by simp)
  | succ n ih =>
      intro items t rest hsz h
      cases hlast : items.getLast? with
      | none =>
          rw [Tokens.next_back_getLast_none hlast] at h
          exact absurd h (by simp)
      | some x =>
          cases x with
          | ref t' =>
              rw [Tokens.next_back_getLast_ref hlast] at h
              simp only [Option.some.injEq, Prod.mk.injEq] at h
              obtain ⟨h1, h2⟩ := h
              obtain ⟨l2, hl⟩ := List.getLast?_eq_some_iff.mp hlast
              subst hl
              rw [List.dropLast_concat] at h2
              rw [Tokens.flatten_append, ← h2, ← h1]
              rw [show Tokens.flatten [TokenTree.ref t']
                    = [t'] from by rw [Tokens.flatten, Tokens.flatten]]
          | more its =>
              rw [Tokens.next_back_getLast_more hlast] at h
              obtain ⟨l2, hl⟩ := List.getLast?_eq_some_iff.mp hlast
              have hsz2 : itemsSize (items.dropLast ++ its) ≤ n := by
                subst hl
                rw [List.dropLast_concat, itemsSize_append]
                rw [itemsSize_append] at hsz
                simp only [itemsSize, TokenTree.size] at hsz
                omega
              have := ih (items.dropLast ++ its) t rest hsz2 h
              subst hl
              rw [List.dropLast_concat] at this
              rw [Tokens.flatten_append] at this ⊢
              rw [show Tokens.flatten [TokenTree.more its]
                    = Tokens.flatten its from by
                  rw [Tokens.flatten]
                  simp]
              exact this

theorem Tokens.next_back_none : ∀ (n : Nat) (items : List TokenTree),
    itemsSize items ≤ n → Tokens.next_back items = none →
    Tokens.flatten items = [] := by
  intro n
  induction n with
  | zero =>
      intro items hsz _
      have : items = [] := itemsSize_eq_zero (Nat.le_zero.mp hsz)
      subst this
      rw [Tokens.flatten]
  | succ n ih =>
      intro items hsz h
      cases hlast : items.getLast? with
      | none =>
          rw [List.getLast?_eq_none_iff.mp hlast]
          rw [Tokens.flatten]
      | some x =>
          cases x with
          | ref t' =>
              rw [Tokens.next_back_getLast_ref hlast] at h
              exact absurd h (by simp)
          | more its =>
              rw [Tokens.next_back_getLast_more hlast] at h
              obtain ⟨l2, hl⟩ := List.getLast?_eq_some_iff.mp hlast
              have hsz2 : itemsSize (items.dropLast ++ its) ≤ n := by
                subst hl
                rw [List.dropLast_concat, itemsSize_append]
                rw [itemsSize_append] at hsz
                simp only [itemsSize, TokenTree.size] at hsz
                omega
              have := ih (items.dropLast ++ its) hsz2 h
              subst hl
              rw [List.dropLast_concat] at this
              rw [Tokens.flatten_append] at this ⊢
              rw [show Tokens.flatten [TokenTree.more its]
                    = Tokens.flatten its from by
                  rw [Tokens.flatten]
                  simp]
              exact this

theorem Tokens.next_back_none_of_flatten {items : List TokenTree}
    (h : Tokens.flatten items = []) : Tokens.next_back items = none := by
  cases hnb : Tokens.next_back items with
  | none => rfl
  | some p =>
      exfalso
      have := Tokens.next_back_some (itemsSize items) items p.1 p.2
        (Nat.le_refl _) (by rw [hnb])
      rw [h] at this
      exact absurd this.symm (by simp)

/-- `Node::tokens` for a modelled node: a leaf token's worklist is the
singleton holding itself (the `Node` impl for `TokenReference`, node.rs lines
197-201); a composite node's worklist is its member items. -/
def TokenTree.tokens : TokenTree → List TokenTree
  | .ref t => [.ref t]
  | .more items => items

/-- `Node::surrounding_trivia` (full-moon-common/src/node.rs lines 34-49):
draw one token from the front of the node's `tokens()` iterator and then one
from the back of the same, partially consumed, iterator; return the front
token's leading trivia and the back token's trailing trivia (empty lists when
the respective draw yields nothing). -/
def TokenTree.surrounding_trivia (n : TokenTree) : List Token × List Token :=
  let tokens0 := n.tokens
  let leading := Tokens.next tokens0
  let tokens1 :=
    match leading with
    | some (_, rest) => rest
    | none => []
  let trailing := Tokens.next_back tokens1
  (match leading with
   | some (t, _) => t.leading_trivia
   | none => [],
   match trailing with
   | some (t, _) => t.trailing_trivia
   | none => [])

/-- C10: when a node's flattening holds exactly one leaf token, the forward
draw consumes it, so `surrounding_trivia` returns that token's leading trivia
paired with the empty trailing list; with two or more leaf tokens it returns
the first token's leading trivia paired with the last token's trailing
trivia. -/
theorem surrounding_trivia_spec (n : TokenTree) :
    (∀ t, Tokens.flatten n.tokens = [t] →
      n.surrounding_trivia = (t.leading_trivia, []))
    ∧ (∀ t1 l, Tokens.flatten n.tokens = t1 :: l → l ≠ [] →
      ∃ t2, l.getLast? = some t2 ∧
        n.surrounding_trivia = (t1.leading_trivia, t2.trailing_trivia)) := by
  constructor
  · intro t hflat
    cases hn : Tokens.next n.tokens with
    | none =>
        rw [Tokens.next_none n.tokens hn] at hflat
        exact absurd hflat (by simp)
    | some p =>
        obtain ⟨t0, rest0⟩ := p
        have hf := Tokens.next_some n.tokens t0 rest0 hn
        rw [hflat] at hf
        simp only [List.cons.injEq] at hf
        obtain ⟨rfl, hrest⟩ := hf
        have hback : Tokens.next_back rest0 = none :=
          Tokens.next_back_none_of_flatten hrest.symm
        unfold TokenTree.surrounding_trivia
        simp only [hn, hback]
  · intro t1 l hflat hne
    cases hn : Tokens.next n.tokens with
    | none =>
        rw [Tokens.next_none n.tokens hn] at hflat
        exact absurd hflat.symm (by simp)
    | some p =>
        obtain ⟨t0, rest0⟩ := p
        have hf := Tokens.next_some n.tokens t0 rest0 hn
        rw [hflat] at hf
        simp only [List.cons.injEq] at hf
        obtain ⟨rfl, hrest⟩ := hf
        cases hb : Tokens.next_back rest0 with
        | none =>
            exfalso
            have := Tokens.next_back_none (itemsSize rest0) rest0
              (Nat.le_refl _) hb
            rw [← hrest] at this
            exact hne this
        | some q =>
            obtain ⟨t2, rest2⟩ := q
            have hbs := Tokens.next_back_some (itemsSize rest0) rest0 t2 rest2
              (Nat.le_refl _) hb
            refine ⟨t2, ?_, ?_⟩
            · rw [hrest, hbs]
              exact List.getLast?_concat _
            · unfold TokenTree.surrounding_trivia
              simp only [hn, hb]

/-- A sample leaf token reference with leading trivia only. -/
def sampleRefA : TokenReference :=
  { leading_trivia := [sampleWs], token := sampleEq, trailing_trivia := [] }

/-- A sample leaf token reference with trailing trivia only. -/
def sampleRefB : TokenReference :=
  { leading_trivia := [], token := sampleEq, trailing_trivia := [sampleWs] }

/-- Witness for C10: both cases of the theorem evaluated at concrete one-leaf
and two-leaf nodes. -/
theorem surrounding_trivia_spec_witness :
    (TokenTree.more [TokenTree.ref sampleRefA]).surrounding_trivia
      = (sampleRefA.leading_trivia, [])
    ∧ (TokenTree.more [TokenTree.ref sampleRefA,
        TokenTree.ref sampleRefB]).surrounding_trivia
      = (sampleRefA.leading_trivia, sampleRefB.trailing_trivia) := by
  constructor
  · exact (surrounding_trivia_spec
      (TokenTree.more [TokenTree.ref sampleRefA])).1 sampleRefA
      (by simp [TokenTree.tokens, Tokens.flatten])
  · obtain ⟨t2, h1, h2⟩ :=
      (surrounding_trivia_spec (TokenTree.more [TokenTree.ref sampleRefA,
        TokenTree.ref sampleRefB])).2 sampleRefA [sampleRefB]
        (by simp [TokenTree.tokens, Tokens.flatten]) (by simp)
    have ht2 : sampleRefB = t2 := by simpa using h1
    rw [h2, ← ht2]

/-! ## The parser state and the error-recovery driver

From `full-moon-common/src/ast/parser_structs.rs` (`ParserState`) and
`full-moon/src/ast/parser_structs.rs` (`AstResult::parse_fallible`, the
recovery loop). The block grammar parser `parse_block` lives in the module
`full-moon/src/ast/parsers.rs`, which is not part of src/: it is treated as
an opaque parameter throughout.
-/

/-- `AstError` (full-moon-common/src/ast/mod.rs lines 2094-2104). -/
structure AstError where
  token : Token
  additional : String
  range : Option (Position × Position)
deriving Repr, DecidableEq

/-- `Error` (full-moon-common/src/lib.rs lines 15-20). -/
inductive Error where
  | AstError (error : AstError)
  | TokenizerError (error : TokenizerError)
deriving Repr, DecidableEq

/-- `Block` (full-moon-common/src/ast.rs lines 56-60), generic over the
statement types: the driver never inspects the statements themselves, so
`Stmt` and `LastStmt` are type parameters of the embedding. -/
structure Block (St Ls : Type) where
  stmts : List (St × Option TokenReference)
  last_stmt : Option (Ls × Option TokenReference)
deriving Repr, DecidableEq

/-- `Block::new`. -/
def Block.new {St Ls : Type} : Block St Ls :=
  { stmts := [], last_stmt := none }

/-- `Block::merge_blocks` (full-moon-common/src/ast.rs lines 107-113): append
the other block's statements; keep the first-seen last statement. -/
def Block.merge_blocks {St Ls : Type} (b other : Block St Ls) : Block St Ls :=
  { stmts := b.stmts ++ other.stmts,
    last_stmt := if b.last_stmt.isNone then other.last_stmt else b.last_stmt }

/-- `Ast` (full-moon-common/src/ast.rs lines 9-12): a block plus the trailing
Eof token. -/
structure Ast (St Ls : Type) where
  nodes : Block St Ls
  eof : TokenReference
deriving Repr, DecidableEq

/-- `ParserResult` (full-moon-common/src/ast/parser_structs.rs lines
209-220). -/
inductive ParserResult (T : Type) where
  | Value (value : T)
  | LexerMoved
  | NotFound
deriving Repr, DecidableEq

/-- `ParserState` (full-moon-common/src/ast/parser_structs.rs lines 10-13).
The `L::Lex` lexer is modelled by the list of `LexerResult` items that its
`current`/`consume` trait methods traverse: `current` looks at the head and
`consume` pops it. -/
structure ParserState where
  errors : List Error
  lexer : List (LexerResult TokenReference)
deriving Repr, DecidableEq

/-- `ParserState::new`. -/
def ParserState.new (lexer : List (LexerResult TokenReference)) : ParserState :=
  { errors := [], lexer := lexer }

/-- `ParserState::current` (full-moon-common/src/ast/parser_structs.rs lines
23-29): `Ok` and `Recovered` slots expose their token, a `Fatal` slot is
`Err(())`; calling `current()` past the end of the stream is `unreachable!`,
modelled as `none`. -/
def ParserState.current (st : ParserState) : Option (Except Unit TokenReference) :=
  match st.lexer.head? with
  | some (.Ok token) => some (.ok token)
  | some (.Recovered token _) => some (.ok token)
  | some (.Fatal _) => some (.error ())
  | none => none

/-- `ParserState::consume` (full-moon-common/src/ast/parser_structs.rs lines
39-63): pop the head item; `Recovered` and `Fatal` slots push their tokenizer
errors onto the accumulated error list. -/
def ParserState.consume (st : ParserState) :
    ParserResult TokenReference × ParserState :=
  match st.lexer with
  | [] => (.NotFound, st)
  | .Ok token :: rest => (.Value token, { st with lexer := rest })
  | .Recovered token errors :: rest =>
      (.Value token,
       { errors := st.errors ++ errors.map .TokenizerError, lexer := rest })
  | .Fatal errors :: rest =>
      (.LexerMoved,
       { errors := st.errors ++ errors.map .TokenizerError, lexer := rest })

/-- `ParserState::token_error` (full-moon-common/src/ast/parser_structs.rs
lines 163-174): record an `AstError` anchored at the given token, with no
explicit range. -/
def ParserState.token_error (st : ParserState) (token_reference : TokenReference)
    (error : String) : ParserState :=
  { st with
    errors := st.errors
      ++ [.AstError { token := token_reference.token, additional := error,
                      range := none }] }

/-- The generic recovery message (full-moon/src/ast/parser_structs.rs line
44). -/
def UNEXPECTED_TOKEN_ERROR : String :=
  "unexpected token, this needs to be a statement"

/-- The outcome of one iteration of the driver loop: abort (a Rust panic),
`break`, or loop again with the updated block and state. -/
inductive DriverStep (St Ls : Type) where
  | panic (message : String)
  | brk (block : Block St Ls) (state : ParserState)
  | cont (block : Block St Ls) (state : ParserState)
deriving Repr

/-- The discard step of the empty-fragment branch
(full-moon/src/ast/parser_structs.rs lines 69-89): consume one token as
discarded, then record the generic diagnostic anchored at it — unless the
immediately preceding recorded diagnostic is the identical generic message
(checked on `errors.last()`), in which case the duplicate is suppressed. -/
def driverDiscard {St Ls : Type} (block : Block St Ls) (st' : ParserState) :
    DriverStep St Ls :=
  match st'.consume with
  | (.Value token, st2) =>
      match st2.errors.getLast? with
      | some (.AstError ae) =>
          if ae.additional == UNEXPECTED_TOKEN_ERROR then
            .cont block st2
          else
            .cont block (st2.token_error token UNEXPECTED_TOKEN_ERROR)
      | _ => .cont block (st2.token_error token UNEXPECTED_TOKEN_ERROR)
  | (.LexerMoved, st2) => .cont block st2
  | (.NotFound, _) => .panic "unreachable: consume returned NotFound"

/-- The body of the driver's second match arm
(full-moon/src/ast/parser_structs.rs lines 60-94): attempt a block fragment;
merge a non-empty fragment; for an empty fragment, break at Eof or discard
one token. -/
def driverStepBody {St Ls : Type}
    (parse_block : ParserState → ParserResult (Block St Ls) × ParserState)
    (block : Block St Ls) (st : ParserState) : DriverStep St Ls :=
  match parse_block st with
  | (.Value new_block, st') =>
      if new_block.stmts.isEmpty then
        match st'.current with
        | none => .panic "current() called past EOF"
        | some (.ok token) =>
            if token.token_kind == .Eof then
              .brk block st'
            else
              driverDiscard block st'
        | some (.error _) => driverDiscard block st'
      else
        .cont (block.merge_blocks new_block) st'
  | (_, st') => .cont block st'

/-- One iteration of the `loop` in `AstResult::parse_fallible`
(full-moon/src/ast/parser_structs.rs lines 54-106). -/
def driverStep {St Ls : Type}
    (parse_block : ParserState → ParserResult (Block St Ls) × ParserState)
    (block : Block St Ls) (st : ParserState) : DriverStep St Ls :=
  match st.lexer.head? with
  | some (.Ok token) =>
      if token.token_kind == .Eof then
        .brk block st
      else
        driverStepBody parse_block block st
  | some (.Recovered _ _) => driverStepBody parse_block block st
  | some (.Fatal errors) =>
      .cont block
        { errors := st.errors ++ errors.map .TokenizerError,
          lexer := st.lexer.tail }
  | none => .brk block st

/-- The driver loop. The fuel argument is the loop variant: under the block
parser's contract every `cont` iteration removes at least one lexer item, so
`length + 1` iterations always suffice (proved in `driverLoop_ok`). -/
def driverLoop {St Ls : Type}
    (parse_block : ParserState → ParserResult (Block St Ls) × ParserState) :
    Nat → Block St Ls → ParserState →
      Except String (Block St Ls × ParserState)
  | 0, _, _ => .error "loop variant exhausted"
  | fuel+1, block, st =>
      match driverStep parse_block block st with
      | .panic m => .error m
      | .brk b s => .ok (b, s)
      | .cont b s => driverLoop parse_block fuel b s

/-- `AstResult` (full-moon/src/ast/parser_structs.rs lines 16-19). -/
structure AstResult (St Ls : Type) where
  ast : Ast St Ls
  errors : List Error
deriving Repr, DecidableEq

/-- `AstResult::parse_fallible` (full-moon/src/ast/parser_structs.rs lines
43-130): the initial `parse_block` call, the recovery loop, and the final Eof
consumption (`Fatal` there is `unreachable!`; `consume()` returning `None` is
an `unwrap` panic). `tokens` is the stream `L::Lex::new(code)` yields. The
final Eof consumption (lines 108-129) is split out as
`parse_fallible_finish`. -/
def parse_fallible_finish {St Ls : Type}
    (loop_result : Except String (Block St Ls × ParserState)) :
    Except String (AstResult St Ls) :=
  match loop_result with
  | .error m => .error m
  | .ok (block, parser_state) =>
      match parser_state.lexer with
      | [] => .error "unwrap() called on None"
      | .Ok token :: _ =>
          .ok { ast := { nodes := block, eof := token },
                errors := parser_state.errors }
      | .Recovered token errors :: _ =>
          .ok { ast := { nodes := block, eof := token },
                errors := parser_state.errors
                  ++ errors.map .TokenizerError }
      | .Fatal _ :: _ => .error "unreachable: fatal lex at eof"

def parse_fallible {St Ls : Type}
    (parse_block : ParserState → ParserResult (Block St Ls) × ParserState)
    (tokens : List (LexerResult TokenReference)) :
    Except String (AstResult St Ls) :=
  match parse_block (ParserState.new tokens) with
  | (r, parser_state) =>
    parse_fallible_finish
      (driverLoop parse_block (tokens.length + 1)
        (match r with
         | .Value block => block
         | _ => Block.new)
        parser_state)

/-- `impl From<AstResult> for Result<Ast, Vec<Error>>`
(full-moon/src/ast/parser_structs.rs lines 138-146): a tree exactly when no
error was recorded, otherwise the accumulated error list. -/
def AstResult.into_result {St Ls : Type} (r : AstResult St Ls) :
    Except (List Error) (Ast St Ls) :=
  if r.errors.isEmpty then .ok r.ast else .error r.errors

/-- `parse` (full-moon/src/lib.rs lines 51-53):
`parse_fallible::<L>(code).into_result()`. -/
def parse {St Ls : Type}
    (parse_block : ParserState → ParserResult (Block St Ls) × ParserState)
    (tokens : List (LexerResult TokenReference)) :
    Except String (Except (List Error) (Ast St Ls)) :=
  match parse_fallible parse_block tokens with
  | .error m => .error m
  | .ok r => .ok r.into_result

/-- Whether a lexer item carries the Eof token. -/
def isEofSlot : LexerResult TokenReference → Bool
  | .Ok t => t.token_kind == .Eof
  | .Recovered t _ => t.token_kind == .Eof
  | .Fatal _ => false

/-- A well-formed lexer stream: it ends with the Eof token (an `Ok` or
`Recovered` item) — the shape every stream of the lexer has (claim C7). -/
def EofTerminated (tokens : List (LexerResult TokenReference)) : Prop :=
  ∃ r, tokens.getLast? = some r ∧ isEofSlot r = true

/-- Modelled from the spec: the contract of the block grammar parser
`parse_block` (module full-moon/src/ast/parsers.rs, not in src/), per spec
§4.3-§4.5. The parser only consumes tokens (the remaining stream is a suffix
of the input stream); it never exhausts a nonempty stream (the trailing Eof
token is never consumed, spec §4.5 step 1/4); and whenever it consumes
nothing from a nonempty stream it returns an empty `Value` fragment (the
spec's termination argument: a produced statement or a `LexerMoved` result
consumes at least one token). -/
def BlockParserContract {St Ls : Type}
    (parse_block : ParserState → ParserResult (Block St Ls) × ParserState) :
    Prop :=
  (∀ st, List.IsSuffix ((parse_block st).2.lexer) st.lexer)
  ∧ (∀ st, st.lexer ≠ [] → (parse_block st).2.lexer ≠ [])
  ∧ (∀ st, st.lexer ≠ [] → (parse_block st).2.lexer = st.lexer →
      ∃ b, (parse_block st).1 = .Value b ∧ b.stmts = [])

theorem eofTerm_suffix {l1 l2 : List (LexerResult TokenReference)}
    (hs : List.IsSuffix l1 l2) (hne : l1 ≠ []) (hE : EofTerminated l2) :
    EofTerminated l1 := by
  obtain ⟨pre, hpre⟩ := hs
  obtain ⟨r, hr, hEof⟩ := hE
  refine ⟨r, ?_, hEof⟩
  rw [← hpre, List.getLast?_append_of_ne_nil _ hne] at hr
  exact hr

theorem eofTerm_tail {x : LexerResult TokenReference}
    {xs : List (LexerResult TokenReference)}
    (hE : EofTerminated (x :: xs)) (hx : isEofSlot x = false) :
    xs ≠ [] ∧ EofTerminated xs := by
  obtain ⟨r, hr, hEof⟩ := hE
  cases xs with
  | nil =>
      simp at hr
      subst hr
      rw [hx] at hEof
      exact absurd hEof (by simp)
  | cons y ys =>
      refine ⟨by simp, r, ?_, hEof⟩
      have hsplit : (x :: y :: ys) = [x] ++ (y :: ys) := rfl
      rw [hsplit, List.getLast?_append_of_ne_nil _ (by simp)] at hr
      exact hr

theorem driverDiscard_shape {St Ls : Type} (block : Block St Ls)
    (st' : ParserState) {y : LexerResult TokenReference}
    {ys : List (LexerResult TokenReference)} (hlex : st'.lexer = y :: ys) :
    ∃ errs2, driverDiscard block st' = .cont block
      { errors := errs2, lexer := ys } := by
  unfold driverDiscard ParserState.consume
  rw [hlex]
  cases y with
  | Ok token =>
      simp only
      cases hget : ({ st' with lexer := ys } : ParserState).errors.getLast? with
      | none => exact ⟨_, rfl⟩
      | some e =>
          cases e with
          | AstError ae =>
              simp only
              by_cases hae : (ae.additional == UNEXPECTED_TOKEN_ERROR) = true
              · rw [hae]
                exact ⟨_, rfl⟩
              · rw [show (ae.additional == UNEXPECTED_TOKEN_ERROR) = false from by
                    simpa using hae]
                exact ⟨_, rfl⟩
          | TokenizerError te => exact ⟨_, rfl⟩
  | Recovered token errors =>
      simp only
      cases hget : (st'.errors ++ errors.map Error.TokenizerError).getLast? with
      | none => exact ⟨_, rfl⟩
      | some e =>
          cases e with
          | AstError ae =>
              simp only
              by_cases hae : (ae.additional == UNEXPECTED_TOKEN_ERROR) = true
              · rw [hae]
                exact ⟨_, rfl⟩
              · rw [show (ae.additional == UNEXPECTED_TOKEN_ERROR) = false from by
                    simpa using hae]
                exact ⟨_, rfl⟩
          | TokenizerError te => exact ⟨_, rfl⟩
  | Fatal errors => exact ⟨_, rfl⟩

theorem driverStepBody_cases {St Ls : Type}
    (pb : ParserState → ParserResult (Block St Ls) × ParserState)
    (hsuf : ∀ st, List.IsSuffix ((pb st).2.lexer) st.lexer)
    (hkeep : ∀ st, st.lexer ≠ [] → (pb st).2.lexer ≠ [])
    (hprog : ∀ st, st.lexer ≠ [] → (pb st).2.lexer = st.lexer →
      ∃ b, (pb st).1 = .Value b ∧ b.stmts = [])
    (block : Block St Ls) (st : ParserState)
    (hne : st.lexer ≠ []) (hE : EofTerminated st.lexer) :
    (∃ b' s', driverStepBody pb block st = .brk b' s' ∧
       ∃ r rs, s'.lexer = r :: rs ∧ isEofSlot r = true)
    ∨ (∃ b' s', driverStepBody pb block st = .cont b' s' ∧
       s'.lexer ≠ [] ∧ EofTerminated s'.lexer ∧
       s'.lexer.length < st.lexer.length) := by
  rcases hpb : pb st with ⟨r, st'⟩
  have hsufst : List.IsSuffix st'.lexer st.lexer := by
    have := hsuf st
    rw [hpb] at this
    exact this
  have hkeepst : st'.lexer ≠ [] := by
    have := hkeep st hne
    rw [hpb] at this
    exact this
  have hEst : EofTerminated st'.lexer := eofTerm_suffix hsufst hkeepst hE
  have hlenst : st'.lexer.length ≤ st.lexer.length := hsufst.length_le
  have hstrict : st'.lexer ≠ st.lexer → st'.lexer.length < st.lexer.length := by
    intro hne2
    rcases Nat.lt_or_ge st'.lexer.length st.lexer.length with hlt | hge
    · exact hlt
    · exact absurd (hsufst.sublist.eq_of_length (Nat.le_antisymm hlenst hge))
        hne2
  unfold driverStepBody
  rw [hpb]
  cases r with
  | Value new_block =>
      simp only
      by_cases hempty : new_block.stmts.isEmpty = true
      · rw [if_pos hempty]
        cases hlex' : st'.lexer with
        | nil => exact absurd hlex' hkeepst
        | cons y ys =>
            rw [hlex'] at hEst
            have hcur : st'.current
                = match (y :: ys : List (LexerResult TokenReference)).head? with
                  | some (.Ok token) => some (.ok token)
                  | some (.Recovered token _) => some (.ok token)
                  | some (.Fatal _) => some (.error ())
                  | none => none := by
              unfold ParserState.current
              rw [hlex']
            cases y with
            | Ok token =>
                rw [show st'.current = some (.ok token) from hcur]
                simp only
                by_cases htok : (token.token_kind == TokenKind.Eof) = true
                · rw [htok]
                  exact Or.inl ⟨block, st', rfl, .Ok token, ys, hlex', htok⟩
                · rw [show (token.token_kind == TokenKind.Eof) = false from by
                      simpa using htok]
                  obtain ⟨errs2, hdisc⟩ := driverDiscard_shape block st' hlex'
                  obtain ⟨hys, hEys⟩ :=
                    eofTerm_tail hEst (by simpa [isEofSlot] using htok)
                  refine Or.inr ⟨block, _, hdisc, hys, hEys, ?_⟩
                  have : st'.lexer.length = ys.length + 1 := by
                    rw [hlex']
                    rfl
                  simp only
                  omega
            | Recovered token rerrs =>
                rw [show st'.current = some (.ok token) from hcur]
                simp only
                by_cases htok : (token.token_kind == TokenKind.Eof) = true
                · rw [htok]
                  exact Or.inl ⟨block, st', rfl, .Recovered token rerrs, ys,
                    hlex', htok⟩
                · rw [show (token.token_kind == TokenKind.Eof) = false from by
                      simpa using htok]
                  obtain ⟨errs2, hdisc⟩ := driverDiscard_shape block st' hlex'
                  obtain ⟨hys, hEys⟩ :=
                    eofTerm_tail hEst (by simpa [isEofSlot] using htok)
                  refine Or.inr ⟨block, _, hdisc, hys, hEys, ?_⟩
                  have : st'.lexer.length = ys.length + 1 := by
                    rw [hlex']
                    rfl
                  simp only
                  omega
            | Fatal fe =>
                rw [show st'.current = some (.error ()) from hcur]
                obtain ⟨errs2, hdisc⟩ := driverDiscard_shape block st' hlex'
                obtain ⟨hys, hEys⟩ := eofTerm_tail hEst (by simp [isEofSlot])
                refine Or.inr ⟨block, _, hdisc, hys, hEys, ?_⟩
                have : st'.lexer.length = ys.length + 1 := by
                  rw [hlex']
                  rfl
                simp only
                omega
      · rw [if_neg hempty]
        refine Or.inr ⟨block.merge_blocks new_block, st', rfl, hkeepst, hEst, ?_⟩
        apply hstrict
        intro heq
        obtain ⟨b, hb1, hb2⟩ := hprog st hne (by rw [hpb]; exact heq)
        rw [hpb] at hb1
        simp only at hb1
        cases hb1
        rw [hb2] at hempty
        simp at hempty
  | LexerMoved =>
      refine Or.inr ⟨block, st', rfl, hkeepst, hEst, ?_⟩
      apply hstrict
      intro heq
      obtain ⟨b, hb1, _⟩ := hprog st hne (by rw [hpb]; exact heq)
      rw [hpb] at hb1
      simp at hb1
  | NotFound =>
      refine Or.inr ⟨block, st', rfl, hkeepst, hEst, ?_⟩
      apply hstrict
      intro heq
      obtain ⟨b, hb1, _⟩ := hprog st hne (by rw [hpb]; exact heq)
      rw [hpb] at hb1
      simp at hb1

theorem driverStep_cases {St Ls : Type}
    (pb : ParserState → ParserResult (Block St Ls) × ParserState)
    (hsuf : ∀ st, List.IsSuffix ((pb st).2.lexer) st.lexer)
    (hkeep : ∀ st, st.lexer ≠ [] → (pb st).2.lexer ≠ [])
    (hprog : ∀ st, st.lexer ≠ [] → (pb st).2.lexer = st.lexer →
      ∃ b, (pb st).1 = .Value b ∧ b.stmts = [])
    (block : Block St Ls) (st : ParserState)
    (hne : st.lexer ≠ []) (hE : EofTerminated st.lexer) :
    (∃ b' s', driverStep pb block st = .brk b' s' ∧
       ∃ r rs, s'.lexer = r :: rs ∧ isEofSlot r = true)
    ∨ (∃ b' s', driverStep pb block st = .cont b' s' ∧
       s'.lexer ≠ [] ∧ EofTerminated s'.lexer ∧
       s'.lexer.length < st.lexer.length) := by
  obtain ⟨x, xs, hlex⟩ := List.exists_cons_of_ne_nil hne
  have hhead : st.lexer.head? = some x := by
    rw [hlex]
    rfl
  have hbody :
      driverStepBody pb block st = driverStep pb block st →
      ((∃ b' s', driverStep pb block st = .brk b' s' ∧
         ∃ r rs, s'.lexer = r :: rs ∧ isEofSlot r = true)
      ∨ (∃ b' s', driverStep pb block st = .cont b' s' ∧
         s'.lexer ≠ [] ∧ EofTerminated s'.lexer ∧
         s'.lexer.length < st.lexer.length)) := by
    intro heq
    rw [← heq]
    exact driverStepBody_cases pb hsuf hkeep hprog block st hne hE
  cases x with
  | Ok token =>
      by_cases htok : (token.token_kind == TokenKind.Eof) = true
      · left
        refine ⟨block, st, ?_, .Ok token, xs, hlex, htok⟩
        unfold driverStep
        rw [hhead]
        simp only
        rw [htok]
        rfl
      · apply hbody
        unfold driverStep
        rw [hhead]
        simp only
        rw [show (token.token_kind == TokenKind.Eof) = false from by
            simpa using htok]
        rfl
  | Recovered token rerrs =>
      apply hbody
      unfold driverStep
      rw [hhead]
  | Fatal errors =>
      right
      have hEc : EofTerminated (LexerResult.Fatal errors :: xs) := by
        rw [← hlex]
        exact hE
      obtain ⟨hxs, hExs⟩ := eofTerm_tail hEc (by simp [isEofSlot])
      refine ⟨block,
        { errors := st.errors ++ errors.map Error.TokenizerError,
          lexer := st.lexer.tail }, ?_, ?_, ?_, ?_⟩
      · unfold driverStep
        rw [hhead]
      · show st.lexer.tail ≠ []
        rw [hlex]
        exact hxs
      · show EofTerminated st.lexer.tail
        rw [hlex]
        exact hExs
      · show st.lexer.tail.length < st.lexer.length
        rw [hlex]
        simp

theorem driverLoop_ok {St Ls : Type}
    (pb : ParserState → ParserResult (Block St Ls) × ParserState)
    (hsuf : ∀ st, List.IsSuffix ((pb st).2.lexer) st.lexer)
    (hkeep : ∀ st, st.lexer ≠ [] → (pb st).2.lexer ≠ [])
    (hprog : ∀ st, st.lexer ≠ [] → (pb st).2.lexer = st.lexer →
      ∃ b, (pb st).1 = .Value b ∧ b.stmts = []) :
    ∀ (fuel : Nat) (block : Block St Ls) (st : ParserState),
      st.lexer ≠ [] → EofTerminated st.lexer → st.lexer.length < fuel →
      ∃ b' s', driverLoop pb fuel block st = .ok (b', s') ∧
        ∃ r rs, s'.lexer = r :: rs ∧ isEofSlot r = true := by
  intro fuel
  induction fuel with
  | zero =>
      intro block st hne hE hlen
      omega
  | succ n ih =>
      intro block st hne hE hlen
      rcases driverStep_cases pb hsuf hkeep hprog block st hne hE with
        ⟨b', s', hstep, hshape⟩ | ⟨b', s', hstep, hne', hE', hlt⟩
      · refine ⟨b', s', ?_, hshape⟩
        unfold driverLoop
        rw [hstep]
      · obtain ⟨b2, s2, hloop, hshape⟩ := ih b' s' hne' hE' (by omega)
        refine ⟨b2, s2, ?_, hshape⟩
        unfold driverLoop
        rw [hstep]
        exact hloop

/-- Shared helper: under the block-parser contract, on any Eof-terminated
token stream the fallible driver runs to completion without any panic and
returns an `AstResult` whose tree ends in the Eof token. -/
theorem parse_fallible_ok {St Ls : Type}
    (pb : ParserState → ParserResult (Block St Ls) × ParserState)
    (hC : BlockParserContract pb)
    (tokens : List (LexerResult TokenReference))
    (hne : tokens ≠ []) (hE : EofTerminated tokens) :
    ∃ res, parse_fallible pb tokens = .ok res ∧
      res.ast.eof.token_kind = .Eof := by
  obtain ⟨hsuf, hkeep, hprog⟩ := hC
  rcases hpb : pb (ParserState.new tokens) with ⟨r, st1⟩
  have hne0 : (ParserState.new tokens).lexer ≠ [] := hne
  have h1 : st1.lexer ≠ [] := by
    have := hkeep (ParserState.new tokens) hne0
    rw [hpb] at this
    exact this
  have hsuf1 : List.IsSuffix st1.lexer tokens := by
    have := hsuf (ParserState.new tokens)
    rw [hpb] at this
    exact this
  have hE1 : EofTerminated st1.lexer := eofTerm_suffix hsuf1 h1 hE
  have hlen1 : st1.lexer.length < tokens.length + 1 := by
    have := hsuf1.length_le
    omega
  have main : ∀ b0 : Block St Ls,
      ∃ res, parse_fallible_finish
          (driverLoop pb (tokens.length + 1) b0 st1) = .ok res ∧
        res.ast.eof.token_kind = .Eof := by
    intro b0
    obtain ⟨b', s', hloop, r0, rs, hlex', hslot⟩ :=
      driverLoop_ok pb hsuf hkeep hprog (tokens.length + 1) b0 st1 h1 hE1 hlen1
    rw [hloop]
    unfold parse_fallible_finish
    simp only
    rw [hlex']
    cases r0 with
    | Ok token =>
        refine ⟨_, rfl, ?_⟩
        simpa [isEofSlot] using hslot
    | Recovered token rerrs =>
        refine ⟨_, rfl, ?_⟩
        simpa [isEofSlot] using hslot
    | Fatal fe =>
        exact absurd hslot (by simp [isEofSlot])
  unfold parse_fallible
  rw [hpb]
  exact main _

/-- C3: for every Eof-terminated token stream and every block parser obeying
the spec's progress contract, the error-recovery driver terminates (the loop
variant `length + 1` never runs out) and returns a complete `Ast` ending in
the Eof token, without hitting any panic site, no matter how many diagnostics
accumulate. -/
theorem parse_fallible_terminates (St Ls : Type) :
    ∀ (parse_block : ParserState → ParserResult (Block St Ls) × ParserState)
      (tokens : List (LexerResult TokenReference)),
      BlockParserContract parse_block → tokens ≠ [] → EofTerminated tokens →
      ∃ res, parse_fallible parse_block tokens = .ok res ∧
        res.ast.eof.token_kind = .Eof :=
  fun parse_block tokens hC hne hE =>
    parse_fallible_ok parse_block hC tokens hne hE

/-- A trivia-free Eof token reference. -/
def eofRef : TokenReference :=
  { leading_trivia := [],
    token := { start_position := ⟨0, 1, 1⟩, end_position := ⟨0, 1, 1⟩,
               token_type := .Eof },
    trailing_trivia := [] }

/-- A block parser that always returns an empty fragment without consuming:
the minimal inhabitant of the spec contract. -/
def trivialBlockParser :
    ParserState → ParserResult (Block Unit Unit) × ParserState :=
  fun st => (.Value Block.new, st)

/-- Witness for C3: the driver evaluated with the trivial contract-satisfying
block parser on the singleton Eof stream. -/
theorem parse_fallible_terminates_witness :
    ∃ res, parse_fallible trivialBlockParser [.Ok eofRef] = .ok res ∧
      res.ast.eof.token_kind = .Eof :=
  parse_fallible_terminates Unit Unit trivialBlockParser [.Ok eofRef]
    ⟨fun st => List.suffix_refl _, fun _ h => h,
     fun _ _ _ => ⟨Block.new, rfl, rfl⟩⟩
    (by simp) ⟨.Ok eofRef, rfl, rfl⟩

/-- C2: the strict entry point `parse` returns the tree exactly when the
fallible parse recorded zero diagnostics, and returns the full accumulated
diagnostics list (never a tree) when at least one diagnostic was recorded;
the fallible entry point always returns a tree together with the (possibly
empty) diagnostics list. -/
theorem parse_strict_vs_fallible (St Ls : Type) :
    ∀ (parse_block : ParserState → ParserResult (Block St Ls) × ParserState)
      (tokens : List (LexerResult TokenReference)),
      BlockParserContract parse_block → tokens ≠ [] → EofTerminated tokens →
      ∃ res, parse_fallible parse_block tokens = .ok res ∧
        (res.errors = [] →
          parse parse_block tokens = .ok (.ok res.ast)) ∧
        (res.errors ≠ [] →
          parse parse_block tokens = .ok (.error res.errors)) ∧
        (∀ ast, parse parse_block tokens = .ok (.ok ast) →
          res.errors = [] ∧ ast = res.ast) := by
  intro pb tokens hC hne hE
  obtain ⟨res, hres, _⟩ := parse_fallible_ok pb hC tokens hne hE
  refine ⟨res, hres, ?_, ?_, ?_⟩
  · intro h0
    unfold parse
    rw [hres]
    simp only
    unfold AstResult.into_result
    rw [if_pos (by simp [h0])]
  · intro h0
    unfold parse
    rw [hres]
    simp only
    unfold AstResult.into_result
    rw [if_neg (by simpa using h0)]
  · intro ast h0
    unfold parse at h0
    rw [hres] at h0
    unfold AstResult.into_result at h0
    simp only at h0
    by_cases he : res.errors.isEmpty
    · rw [if_pos he] at h0
      simp only [Except.ok.injEq] at h0
      exact ⟨by simpa using he, h0.symm⟩
    · rw [if_neg he] at h0
      simp at h0

/-- Witness for C2: the strict/fallible relationship evaluated with the
trivial block parser on the singleton Eof stream. -/
theorem parse_strict_vs_fallible_witness :
    ∃ res, parse_fallible trivialBlockParser [.Ok eofRef] = .ok res ∧
      (res.errors = [] →
        parse trivialBlockParser [.Ok eofRef] = .ok (.ok res.ast)) ∧
      (res.errors ≠ [] →
        parse trivialBlockParser [.Ok eofRef] = .ok (.error res.errors)) ∧
      (∀ ast, parse trivialBlockParser [.Ok eofRef] = .ok (.ok ast) →
        res.errors = [] ∧ ast = res.ast) :=
  parse_strict_vs_fallible Unit Unit trivialBlockParser [.Ok eofRef]
    ⟨fun st => List.suffix_refl _, fun _ h => h,
     fun _ _ _ => ⟨Block.new, rfl, rfl⟩⟩
    (by simp) ⟨.Ok eofRef, rfl, rfl⟩

/-- C8: in the recovery driver, when the block fragment parses as empty and
the cursor is not at Eof, exactly one token is consumed as discarded
(`st'.lexer` shrinks from `.Ok t :: rest` to `rest`) and the generic
"unexpected token, this needs to be a statement" diagnostic is recorded
anchored at that token — except that when the immediately preceding recorded
diagnostic is that identical generic message, no duplicate is recorded. -/
theorem recovery_discard_dedup (St Ls : Type)
    (pb : ParserState → ParserResult (Block St Ls) × ParserState)
    (block new_block : Block St Ls) (st st' : ParserState)
    (u t : TokenReference) (rest : List (LexerResult TokenReference))
    (hhead : st.lexer.head? = some (.Ok u))
    (hu : (u.token_kind == TokenKind.Eof) = false)
    (hpb : pb st = (.Value new_block, st'))
    (hstmts : new_block.stmts = [])
    (hlex : st'.lexer = .Ok t :: rest)
    (ht : (t.token_kind == TokenKind.Eof) = false) :
    ((∃ ae, st'.errors.getLast? = some (.AstError ae) ∧
        ae.additional = UNEXPECTED_TOKEN_ERROR) →
      driverStep pb block st =
        .cont block { errors := st'.errors, lexer := rest })
    ∧ ((∀ ae, st'.errors.getLast? = some (.AstError ae) →
        ae.additional ≠ UNEXPECTED_TOKEN_ERROR) →
      driverStep pb block st =
        .cont block
          { errors := st'.errors
              ++ [.AstError { token := t.token,
                              additional := UNEXPECTED_TOKEN_ERROR,
                              range := none }],
            lexer := rest }) := by
  have hstep : driverStep pb block st = driverDiscard block st' := by
    unfold driverStep
    rw [hhead]
    simp only
    rw [hu]
    show driverStepBody pb block st = driverDiscard block st'
    unfold driverStepBody
    rw [hpb]
    simp only
    rw [show new_block.stmts.isEmpty = true from by simp [hstmts]]
    show (match st'.current with
          | none => DriverStep.panic "current() called past EOF"
          | some (.ok token) =>
              if token.token_kind == .Eof then
                .brk block st'
              else
                driverDiscard block st'
          | some (.error _) => driverDiscard block st')
        = driverDiscard block st'
    rw [show st'.current = some (.ok t) from by
        unfold ParserState.current
        rw [hlex]
        rfl]
    simp only
    rw [ht]
    rfl
  have hdisc : driverDiscard block st' =
      match st'.errors.getLast? with
      | some (.AstError ae) =>
          if ae.additional == UNEXPECTED_TOKEN_ERROR then
            .cont block { errors := st'.errors, lexer := rest }
          else
            .cont block
              { errors := st'.errors
                  ++ [.AstError { token := t.token,
                                  additional := UNEXPECTED_TOKEN_ERROR,
                                  range := none }],
                lexer := rest }
      | _ =>
          .cont block
            { errors := st'.errors
                ++ [.AstError { token := t.token,
                                additional := UNEXPECTED_TOKEN_ERROR,
                                range := none }],
              lexer := rest } := by
    unfold driverDiscard ParserState.consume
    rw [hlex]
    simp only
    cases hget : st'.errors.getLast? with
    | none => rfl
    | some e =>
        cases e with
        | AstError ae =>
            simp only
            by_cases hae : (ae.additional == UNEXPECTED_TOKEN_ERROR) = true
            · rw [hae]
              rfl
            · rw [show (ae.additional == UNEXPECTED_TOKEN_ERROR) = false from by
                  simpa using hae]
              rfl
        | TokenizerError te => rfl
  constructor
  · intro hprev
    obtain ⟨ae, hget, hae⟩ := hprev
    rw [hstep, hdisc, hget]
    simp only
    rw [show (ae.additional == UNEXPECTED_TOKEN_ERROR) = true from by
        simp [hae]]
    rfl
  · intro hnone
    rw [hstep, hdisc]
    cases hget : st'.errors.getLast? with
    | none => rfl
    | some e =>
        cases e with
        | AstError ae =>
            simp only
            rw [show (ae.additional == UNEXPECTED_TOKEN_ERROR) = false from by
                simpa using hnone ae hget]
            rfl
        | TokenizerError te => rfl

/-- A trivia-free identifier token reference, a token that is not Eof. -/
def identRef : TokenReference :=
  { leading_trivia := [],
    token := { start_position := ⟨0, 1, 1⟩, end_position := ⟨1, 1, 2⟩,
               token_type := .Identifier "x" },
    trailing_trivia := [] }

/-- Witness for C8: the discard step evaluated with the trivial block parser
on the stream holding one identifier then Eof, with no prior diagnostics (the
non-dedup side records the generic diagnostic; the dedup side is vacuous). -/
theorem recovery_discard_dedup_witness :
    ((∃ ae, (ParserState.new [.Ok identRef, .Ok eofRef]).errors.getLast?
          = some (.AstError ae) ∧
        ae.additional = UNEXPECTED_TOKEN_ERROR) →
      driverStep trivialBlockParser (Block.new : Block Unit Unit)
          (ParserState.new [.Ok identRef, .Ok eofRef]) =
        .cont Block.new
          { errors := (ParserState.new [.Ok identRef, .Ok eofRef]).errors,
            lexer := [.Ok eofRef] })
    ∧ ((∀ ae, (ParserState.new [.Ok identRef, .Ok eofRef]).errors.getLast?
          = some (.AstError ae) →
        ae.additional ≠ UNEXPECTED_TOKEN_ERROR) →
      driverStep trivialBlockParser (Block.new : Block Unit Unit)
          (ParserState.new [.Ok identRef, .Ok eofRef]) =
        .cont Block.new
          { errors := (ParserState.new [.Ok identRef, .Ok eofRef]).errors
              ++ [.AstError { token := identRef.token,
                              additional := UNEXPECTED_TOKEN_ERROR,
                              range := none }],
            lexer := [.Ok eofRef] }) :=
  recovery_discard_dedup Unit Unit trivialBlockParser Block.new Block.new
    (ParserState.new [.Ok identRef, .Ok eofRef])
    (ParserState.new [.Ok identRef, .Ok eofRef])
    identRef identRef [.Ok eofRef]
    rfl (by decide) rfl rfl rfl (by decide)

end FullMoon
